import Mathlib

/-!
# isobmffdump: header decoder, container registry and tree walker

A shallow embedding of `src/isobmffdump.cpp`.

Conventions of the embedding:

* `size_t` and `uint32_t` values are natural numbers, reduced modulo `2^64`
  wherever the C arithmetic can wrap; `off_t` values are integers, wrapped into
  the signed 64-bit range by `to_off_t`.
* The mapped file is a list of bytes.  A read of `data[i]` with `i` outside the
  list is undefined behaviour in C; the embedding reports it as a fault instead
  of inventing a value.
* `memcpy (type, data + offset + 4, 4)` loads the type word in the byte order of
  the machine.  The constants of the `atoms` table (`moov` is `0x766f6f6d`) fix
  that order as little-endian.
* The boundary stack `levels[0 .. level - 1]` is a list, innermost boundary
  first.  Line 248 reads `levels[level - 1]` without testing `level`; with
  `level = 0` that read is outside the array, and the value it finds is a
  parameter of the embedding (`junk`), one word per iteration.  The write
  `levels[64]` of a 65th boundary is reported as a fault.
* The loop of `main` is `main_loop`, run for a bounded number of iterations; a
  run that is still going when they are used up ends as `out_of_fuel`.
-/

namespace Isobmffdump

/-! ## Machine arithmetic -/

/-- One byte of the mapped file (`u_char`). -/
abbrev Byte := Fin 256

/-- Subtraction of two `size_t` values: the difference modulo `2^64`. -/
def sub64 (a b : Nat) : Nat := (a + 2 ^ 64 - b) % 2 ^ 64

/-- Addition of two `size_t` values: the sum modulo `2^64`. -/
def add64 (a b : Nat) : Nat := (a + b) % 2 ^ 64

/-- Conversion of an integer to `off_t`: wrapped into `[-2^63, 2^63)`. -/
def to_off_t (i : Int) : Int := (i + 2 ^ 63) % 2 ^ 64 - 2 ^ 63

/-- Conversion of an `off_t` to `size_t`: the value modulo `2^64`. -/
def to_size_t (i : Int) : Nat := (i % 2 ^ 64).toNat

/-! ## The mapped file -/

/-- The byte `data[i]`, as a number.  Only meaningful when `inside data i 1`. -/
def byteAt (data : List Byte) (i : Nat) : Nat := (data.getD i 0).val

/-- The `n` bytes `data[i] .. data[i + n - 1]` all lie inside the mapping. -/
def inside (data : List Byte) (i n : Nat) : Bool := decide (i + n ≤ data.length)

/-! ## Header decoder (`atom_decode`, lines 72-106) -/

/-- Outcome of `atom_decode`.  `fail` is `return false`, `ok` is `return true`
with the three out-parameters, `fault` is a read outside the mapped file. -/
inductive Decoded where
  | fault
  | fail
  | ok (size : Nat) (type : Nat) (header_size : Nat)
  deriving DecidableEq, Repr

/-- The 32-bit size field, line 82:
`(data[offset] << 24) + (data[offset + 1] << 16) + (data[offset + 2] << 8) + data[offset + 3]`. -/
def size_field (data : List Byte) (offset : Nat) : Nat :=
  (((byteAt data offset) <<< 24) + ((byteAt data (offset + 1)) <<< 16)
    + ((byteAt data (offset + 2)) <<< 8) + byteAt data (offset + 3)) % 2 ^ 64

/-- The 64-bit size field, lines 97-98: bytes 8 to 15 shifted by 56, 48, ..., 0
and added in `size_t`. -/
def ext_size_field (data : List Byte) (offset : Nat) : Nat :=
  (((byteAt data (offset + 8)) <<< 56) + ((byteAt data (offset + 9)) <<< 48)
    + ((byteAt data (offset + 10)) <<< 40) + ((byteAt data (offset + 11)) <<< 32)
    + ((byteAt data (offset + 12)) <<< 24) + ((byteAt data (offset + 13)) <<< 16)
    + ((byteAt data (offset + 14)) <<< 8) + byteAt data (offset + 15)) % 2 ^ 64

/-- The type word, line 104: `memcpy (type, data + offset + 4, 4)` on a
little-endian machine. -/
def type_word (data : List Byte) (offset : Nat) : Nat :=
  byteAt data (offset + 4) + byteAt data (offset + 5) * 2 ^ 8
    + byteAt data (offset + 6) * 2 ^ 16 + byteAt data (offset + 7) * 2 ^ 24

/-- Lines 100-105: the final size check and the copy of the type. -/
def atom_finish (data : List Byte) (offset size header_size : Nat) : Decoded :=
  if size < 8 then Decoded.fail
  else if inside data (offset + 4) 4 then Decoded.ok size (type_word data offset) header_size
  else Decoded.fault

/-- The function `atom_decode (data, offset, total, &size, &type, &header_size)`.
`offset` and `total` are `size_t`, so `total - offset` is taken modulo `2^64`. -/
def atom_decode (data : List Byte) (offset total : Nat) : Decoded :=
  if sub64 total offset < 8 then Decoded.fail
  else if inside data offset 4 then
    if size_field data offset = 0 then
      atom_finish data offset (sub64 total offset) 8
    else if size_field data offset = 1 then
      if sub64 total offset < 16 then Decoded.fail
      else if inside data (offset + 8) 8 then
        atom_finish data offset (ext_size_field data offset) 16
      else Decoded.fault
    else atom_finish data offset (size_field data offset) 8
  else Decoded.fault

/-- The function `atom_name`, lines 109-120: the four bytes
`(type >> (24 - 8 * (3 - index))) & 0xff` for `index = 0 .. 3`. -/
def atom_name (type : Nat) : List Nat :=
  (List.range 4).map (fun index => (type >>> (24 - 8 * (3 - index))) &&& 0xff)

/-! ## Words of the specification about headers -/

/-- The bytes `data[offset] .. data[offset + n - 1]` as numbers. -/
def window (data : List Byte) (offset n : Nat) : List Nat :=
  (List.range n).map (fun k => byteAt data (offset + k))

/-- The value of a byte string read as a big-endian integer, most significant
byte first. -/
def be_value (bytes : List Nat) : Nat :=
  bytes.foldl (fun acc b => acc * 256 + b) 0

/-- The `n` bytes that encode `v` as a big-endian integer. -/
def be_bytes : Nat → Nat → List Nat
  | 0, _ => []
  | n + 1, v => (v / 256 ^ n) % 256 :: be_bytes n v

/-- The header length in the words of the specification: 16 for the extended
form (size field `1`), 8 otherwise. -/
def header_length (data : List Byte) (offset : Nat) : Nat :=
  if be_value (window data offset 4) = 1 then 16 else 8

/-! ## Container registry (`atoms`, lines 33-69) -/

/-- One entry of the table: `struct ATOM { uint32_t type; uint32_t size; }`. -/
structure ATOM where
  type : Nat
  size : Nat
  deriving DecidableEq, Repr

/-- The table `atoms[]`, end marker included. -/
def atoms : List ATOM :=
  [ ⟨0x766f6f6d, 0⟩,  -- moov
    ⟨0x6b617274, 0⟩,  -- trak
    ⟨0x73746465, 0⟩,  -- edts
    ⟨0x6169646d, 0⟩,  -- mdia
    ⟨0x666e696d, 0⟩,  -- minf
    ⟨0x666e6964, 0⟩,  -- dinf
    ⟨0x6c627473, 0⟩,  -- stbl
    ⟨0x64737473, 8⟩,  -- stsd
    ⟨0x7865766d, 0⟩,  -- mvex
    ⟨0x61746475, 0⟩,  -- udta
    ⟨0x666f6f6d, 0⟩,  -- moof
    ⟨0x66617274, 0⟩,  -- traf
    ⟨0x6172666d, 0⟩,  -- mfra
    ⟨0x6f727069, 0⟩,  -- ipro
    ⟨0x666e6973, 0⟩,  -- sinf
    ⟨0x69686373, 0⟩,  -- schi
    ⟨0x6e696966, 0⟩,  -- fiin
    ⟨0x6e656170, 0⟩,  -- paen
    ⟨0x6f63656d, 0⟩,  -- meco
    ⟨0x61636e65, 28⟩, -- enca
    ⟨0x6134706d, 28⟩, -- mp4a
    ⟨0x76636e65, 78⟩, -- encv
    ⟨0x31637661, 78⟩, -- avc1
    ⟨0x32637661, 78⟩, -- avc2
    ⟨0x7634706d, 78⟩, -- mp4v
    ⟨0x00000000, 0⟩ ] -- end marker

/-- The scan of lines 233-243, started at `atoms[index]`:
`while (atoms[index].type) { if (atom_type == atoms[index].type) { ...; break; } index ++; }`.
The result is the entry at which the scan broke out, or `none` when it ran into
the end marker, which is the case `!atoms[index].type` of line 244. -/
def atoms_scan (atom_type : Nat) : List ATOM → Option ATOM
  | [] => none
  | a :: rest =>
    if a.type = 0 then none
    else if atom_type = a.type then some a
    else atoms_scan atom_type rest

/-! ## Words of the specification about the registry -/

/-- The registry in the words of the specification (section 4.2): 18 container
types with no extra bytes, `stsd` with 8, `enca` and `mp4a` with 28, `encv`,
`avc1`, `avc2` and `mp4v` with 78. -/
def spec_registry : List (String × Nat) :=
  [("moov", 0), ("trak", 0), ("edts", 0), ("mdia", 0), ("minf", 0), ("dinf", 0), ("stbl", 0),
   ("mvex", 0), ("udta", 0), ("moof", 0), ("traf", 0), ("mfra", 0), ("ipro", 0), ("sinf", 0),
   ("schi", 0), ("fiin", 0), ("paen", 0), ("meco", 0), ("stsd", 8), ("enca", 28), ("mp4a", 28),
   ("encv", 78), ("avc1", 78), ("avc2", 78), ("mp4v", 78)]

/-- The bytes of a four-character code, in file order. -/
def code_bytes (name : String) : List Nat := name.toList.map Char.toNat

/-- The lookup of the specification: the extra header bytes of a code of the
registry, `none` for a leaf. -/
def spec_lookup (code : List Nat) : Option Nat :=
  (spec_registry.find? (fun e => decide (code_bytes e.1 = code))).map Prod.snd

/-- Four bytes loaded as `memcpy` loads them into a `uint32_t` on a little-endian
machine; this is `type_word` on a list of bytes. -/
def load_word : List Nat → Nat
  | [b0, b1, b2, b3] => b0 + b1 * 2 ^ 8 + b2 * 2 ^ 16 + b3 * 2 ^ 24
  | _ => 0

/-- The list is four bytes long and every entry is a byte. -/
def four_bytes : List Nat → Bool
  | [b0, b1, b2, b3] => decide (b0 < 256 ∧ b1 < 256 ∧ b2 < 256 ∧ b3 < 256)
  | _ => false

/-- The names in the comments of the table `atoms[]`, in the order of the table. -/
def table_names : List (String × Nat) :=
  [("moov", 0), ("trak", 0), ("edts", 0), ("mdia", 0), ("minf", 0), ("dinf", 0), ("stbl", 0),
   ("stsd", 8), ("mvex", 0), ("udta", 0), ("moof", 0), ("traf", 0), ("mfra", 0), ("ipro", 0),
   ("sinf", 0), ("schi", 0), ("fiin", 0), ("paen", 0), ("meco", 0), ("enca", 28), ("mp4a", 28),
   ("encv", 78), ("avc1", 78), ("avc2", 78), ("mp4v", 78)]

/-! ## Tree walker (`main`, lines 209-258) -/

/-- The command line, as far as the walker reads it: `raw_dump`, and for every
`--dump` option the four bytes `memcmp` reads at `dumps[index]`. -/
structure Config where
  raw_dump : Bool
  dumps : List (List Nat)
  deriving DecidableEq, Repr

/-- The variables the loop carries from one iteration to the next: `data_offset`
(an `off_t`) and the boundary stack.  The list holds `levels[level - 1]` first and
`levels[0]` last, and `level` is its length; slots of the array above `level` are
always written before they are read, so they are not kept. -/
structure State where
  data_offset : Int
  levels : List Nat
  deriving DecidableEq, Repr

/-- The arguments of one call of `dump` (line 229), the buffer address given as
an index into the file. -/
structure DumpCall where
  start : Int
  size : Nat
  indent : Nat
  raw : Bool
  deriving DecidableEq, Repr

/-- One visited box: the values line 224 formats (`data_offset`, `level`,
`atom_type`, `atom_size`), the header length `atom_decode` reported, and the call
of `dump` the box triggered, if any. -/
structure Visit where
  offset : Int
  depth : Nat
  type : Nat
  size : Nat
  header_size : Nat
  dump : Option DumpCall
  deriving DecidableEq, Repr

/-- Undefined behaviour the embedding stops at: a read outside the mapped file,
or the write `levels[64]` past the end of the array. -/
inductive Fault where
  | read
  | levels_overflow
  deriving DecidableEq, Repr

/-- What one iteration of the loop body does. -/
inductive Iter where
  /-- `atom_decode` read outside the file. -/
  | fault
  /-- `atom_decode` returned false: `break` (line 213). -/
  | stop
  /-- Boundary violation: `continue` (line 219) with the new state. -/
  | recovered (next : State)
  /-- The box was reported and the iteration ran to its end. -/
  | visited (v : Visit) (next : State)
  /-- The box was reported, then line 238 wrote `levels[64]`. -/
  | overflow (v : Visit)
  deriving DecidableEq, Repr

/-- The value of `levels[level - 1]`.  With `level = 0` the index wraps and the
read is outside the array; `junk` stands for the word found there. -/
def levels_top (junk : Nat) : List Nat → Nat
  | [] => junk % 2 ^ 64
  | b :: _ => b

/-- Line 223: `atom_size = std::min ((off_t) atom_size, data_size - data_offset)`. -/
def clamp (atom_size : Nat) (data_size data_offset : Int) : Nat :=
  to_size_t (min (to_off_t atom_size) (to_off_t (data_size - data_offset)))

/-- Lines 225-232: the first filter equal to the four bytes of `atom_name`
triggers one call of `dump`, then `break`. -/
def dump_call (cfg : Config) (data_offset : Int) (level atom_type atom_size : Nat) :
    Option DumpCall :=
  if cfg.dumps.any (fun d => decide (d = atom_name atom_type)) then
    some ⟨data_offset + 8, sub64 atom_size 8, (13 + level * 2) % 2 ^ 64, cfg.raw_dump⟩
  else none

/-- Lines 248-251: the trailing-gap fold. -/
def fold_gap (junk : Nat) (data_offset : Int) (levels : List Nat) : Int :=
  if to_size_t data_offset < levels_top junk levels
      ∧ sub64 (levels_top junk levels) (to_size_t data_offset) < 8 then
    to_off_t (levels_top junk levels)
  else data_offset

/-- Lines 252-256: `while (level && (size_t) data_offset >= levels[level - 1]) level --`. -/
def pop_levels (data_offset : Int) : List Nat → List Nat
  | [] => []
  | b :: rest => if b ≤ to_size_t data_offset then pop_levels data_offset rest else b :: rest

/-- Lines 221-256: the box at `data_offset` is reported, entered or skipped, and
the boundaries reached are popped. -/
def visit (data : List Byte) (cfg : Config) (junk : Nat) (s : State)
    (atom_size atom_type header_size : Nat) : Iter :=
  let size := clamp atom_size data.length s.data_offset
  let v : Visit :=
    ⟨s.data_offset, s.levels.length, atom_type, size, header_size,
      dump_call cfg s.data_offset s.levels.length atom_type size⟩
  match atoms_scan atom_type atoms with
  | some a =>
    if s.levels.length < 64 then
      let levels := add64 (to_size_t s.data_offset) size :: s.levels
      let entered := to_off_t (s.data_offset + ((header_size + a.size) % 2 ^ 32 : Nat))
      let folded := fold_gap junk entered levels
      Iter.visited v ⟨folded, pop_levels folded levels⟩
    else Iter.overflow v
  | none =>
    let skipped := to_off_t (add64 (to_size_t s.data_offset) size)
    let folded := fold_gap junk skipped s.levels
    Iter.visited v ⟨folded, pop_levels folded s.levels⟩

/-- One iteration of the loop body, lines 211-256. -/
def iteration (data : List Byte) (cfg : Config) (junk : Nat) (s : State) : Iter :=
  match atom_decode data (to_size_t s.data_offset) (to_size_t data.length) with
  | Decoded.fault => Iter.fault
  | Decoded.fail => Iter.stop
  | Decoded.ok atom_size atom_type header_size =>
    match s.levels with
    | b :: rest =>
      if b < add64 (to_size_t s.data_offset) atom_size then
        Iter.recovered ⟨to_off_t b, rest⟩
      else visit data cfg junk s atom_size atom_type header_size
    | [] => visit data cfg junk s atom_size atom_type header_size

/-- Why a run of the loop ended. -/
inductive Halt where
  /-- The guard `data_offset < data_size` of line 209 failed. -/
  | end_of_buffer
  /-- `atom_decode` returned false. -/
  | decode_failed
  /-- The run reached undefined behaviour. -/
  | fault (f : Fault)
  /-- The iterations allowed were used up with the loop still running. -/
  | out_of_fuel
  deriving DecidableEq, Repr

/-- A run of the loop: why it ended, the state it ended in, and what each
iteration did, in order. -/
structure Run where
  halt : Halt
  final : State
  log : List Iter
  deriving Repr

/-- The loop of lines 209-257, run for at most `fuel` iterations from state `s`.
`junk i` is the word the `i`-th iteration from here finds below `levels[0]`. -/
def main_loop (data : List Byte) (cfg : Config) : Nat → (Nat → Nat) → State → Run
  | 0, _, s =>
    if s.data_offset < data.length then ⟨Halt.out_of_fuel, s, []⟩
    else ⟨Halt.end_of_buffer, s, []⟩
  | fuel + 1, junk, s =>
    if s.data_offset < data.length then
      match iteration data cfg (junk 0) s with
      | Iter.fault => ⟨Halt.fault Fault.read, s, []⟩
      | Iter.stop => ⟨Halt.decode_failed, s, []⟩
      | Iter.overflow v => ⟨Halt.fault Fault.levels_overflow, s, [Iter.overflow v]⟩
      | Iter.recovered next =>
        let r := main_loop data cfg fuel (fun i => junk (i + 1)) next
        ⟨r.halt, r.final, Iter.recovered next :: r.log⟩
      | Iter.visited v next =>
        let r := main_loop data cfg fuel (fun i => junk (i + 1)) next
        ⟨r.halt, r.final, Iter.visited v next :: r.log⟩
    else ⟨Halt.end_of_buffer, s, []⟩

/-- The state `main` enters the loop in: `data_offset = 0`, `level = 0`. -/
def start : State := ⟨0, []⟩

/-- The boxes a run visited, in order. -/
def visits : List Iter → List Visit
  | [] => []
  | Iter.visited v _ :: rest => v :: visits rest
  | Iter.overflow v :: rest => v :: visits rest
  | _ :: rest => visits rest

/-- One structural event: the four values the `printf` of line 224 formats. -/
structure Event where
  offset : Int
  depth : Nat
  type : Nat
  size : Nat
  deriving DecidableEq, Repr

/-- The structural events a run printed.  Line 224 prints one for every visited
box unless `raw_dump` is set. -/
def events (cfg : Config) (log : List Iter) : List Event :=
  if cfg.raw_dump then []
  else (visits log).map (fun v => ⟨v.offset, v.depth, v.type, v.size⟩)

/-! ## Properties of runs -/

/-- The state is one the loop can be in while no size at or above `2^63` has been
reported: `data_offset` is an `off_t`, and every boundary on the stack lies within
the file. -/
def Bounded (data : List Byte) (s : State) : Prop :=
  -2 ^ 63 ≤ s.data_offset ∧ s.data_offset < 2 ^ 63 ∧ ∀ b ∈ s.levels, b ≤ data.length

/-- The nesting of the boundary stack while no size at or above `2^63` has been
reported: the offset is not negative, every boundary lies within the file, the
boundaries do not decrease from the innermost to the outermost, and the offset
is at most every boundary. -/
def Nested (data : List Byte) (s : State) : Prop :=
  0 ≤ s.data_offset ∧ s.data_offset < 2 ^ 63 ∧ (∀ b ∈ s.levels, b ≤ data.length)
    ∧ s.levels.Pairwise (· ≤ ·) ∧ ∀ b ∈ s.levels, s.data_offset ≤ b

/-- The last iteration of the log was a boundary-violation recovery. -/
def last_recovered : List Iter → Bool
  | [] => false
  | [Iter.recovered _] => true
  | [_] => false
  | _ :: x :: rest => last_recovered (x :: rest)

/-- The state an iteration leaves behind, when the loop goes on after it. -/
def Iter.after : Iter → Option State
  | Iter.recovered next => some next
  | Iter.visited _ next => some next
  | _ => none

/-- The child bound of section 8 of the specification, on the log of a run: when
a container was reported at offset `c.offset` with header length `c.header_size`
and `a.size` extra header bytes, every box reported later, while the boundary
that container pushed is still on the stack (the stack stays deeper than
`c.depth` after every iteration in between), is at an offset of at least
`c.offset + c.header_size + a.size`. -/
def child_floor (log : List Iter) : Prop :=
  ∀ (i j : Nat) (c e : Visit) (ci ej : State) (a : ATOM), i < j →
    log[i]? = some (Iter.visited c ci) → log[j]? = some (Iter.visited e ej) →
    atoms_scan c.type atoms = some a →
    (∀ (k : Nat) (x : Iter) (sx : State), i ≤ k → k < j → log[k]? = some x →
      x.after = some sx → c.depth < sx.levels.length) →
    c.offset + c.header_size + a.size ≤ e.offset

/-- The test of line 215: `level && (data_offset + atom_size) > levels[level - 1]`. -/
def violates (s : State) (atom_size : Nat) : Bool :=
  match s.levels with
  | b :: _ => decide (b < add64 (to_size_t s.data_offset) atom_size)
  | [] => false

/-- The log of a run from state `s`, each iteration paired with the state it
started in. -/
def with_states (s : State) : List Iter → List (State × Iter)
  | [] => []
  | x :: rest => (s, x) :: with_states (x.after.getD s) rest

/-! ## Files used as examples -/

/-- A 16-byte file: one `free` box with the 32-bit size field 16. -/
def plain_box : List Byte :=
  [0, 0, 0, 16, 0x66, 0x72, 0x65, 0x65, 1, 2, 3, 4, 5, 6, 7, 8]

/-- A 12-byte file: one `free` box whose size field is `0`. -/
def open_ended_box : List Byte :=
  [0, 0, 0, 0, 0x66, 0x72, 0x65, 0x65, 1, 2, 3, 4]

/-- A 16-byte file: one `free` box in the extended form whose 64-bit size is
`2^64 - 1`. -/
def huge_extended_box : List Byte :=
  [0, 0, 0, 1, 0x66, 0x72, 0x65, 0x65, 255, 255, 255, 255, 255, 255, 255, 255]

/-- A 12-byte file: the size field announces the extended form, but only four
bytes follow the first eight. -/
def cut_extended_box : List Byte :=
  [0, 0, 0, 1, 0x66, 0x72, 0x65, 0x65, 0, 0, 0, 0]

/-- A 16-byte file: one `free` box in the extended form whose 64-bit size is
`2^63`. -/
def half_range_box : List Byte :=
  [0, 0, 0, 1, 0x66, 0x72, 0x65, 0x65, 0x80, 0, 0, 0, 0, 0, 0, 0]

/-- A 32-byte file: a `moov` box of size 32 that holds a `free` box of size 8 and
a `free` box in the extended form whose 64-bit size is `2^64 - 8`. -/
def cycle_file : List Byte :=
  [0, 0, 0, 32, 0x6d, 0x6f, 0x6f, 0x76,
   0, 0, 0, 8, 0x66, 0x72, 0x65, 0x65,
   0, 0, 0, 1, 0x66, 0x72, 0x65, 0x65, 255, 255, 255, 255, 255, 255, 255, 248]

/-- A 24-byte file: a `moov` box of size 24 that holds one `free` box in the
extended form whose 64-bit size is `2^64 - 8`. -/
def rewind_file : List Byte :=
  [0, 0, 0, 24, 0x6d, 0x6f, 0x6f, 0x76,
   0, 0, 0, 1, 0x66, 0x72, 0x65, 0x65, 255, 255, 255, 255, 255, 255, 255, 248]

/-- A 24-byte file: a `moov` box of size 24 that holds a `trak` box of size 16,
whose only child announces a size of 100. -/
def nested_overshoot : List Byte :=
  [0, 0, 0, 24, 0x6d, 0x6f, 0x6f, 0x76,
   0, 0, 0, 16, 0x74, 0x72, 0x61, 0x6b,
   0, 0, 0, 100, 0x66, 0x72, 0x65, 0x65]

/-- A 24-byte file: a `moov` box of size 24 that holds one `free` box of size 16. -/
def moov_with_leaf : List Byte :=
  [0, 0, 0, 24, 0x6d, 0x6f, 0x6f, 0x76,
   0, 0, 0, 16, 0x66, 0x72, 0x65, 0x65, 1, 2, 3, 4, 5, 6, 7, 8]

/-- A 16-byte file: one `moov` box in the extended form whose 64-bit size is
`2^63`. -/
def half_range_container : List Byte :=
  [0, 0, 0, 1, 0x6d, 0x6f, 0x6f, 0x76, 0x80, 0, 0, 0, 0, 0, 0, 0]

/-- No dump filter, structure printed. -/
def plain_config : Config := ⟨false, []⟩

/-- The word below `levels[0]` is 0 in every iteration. -/
def zero_junk : Nat → Nat := fun _ => 0

/-- A 24-byte file: one `free` box in the extended form, 64-bit size 24, with
eight bytes of payload. -/
def extended_leaf : List Byte :=
  [0, 0, 0, 1, 0x66, 0x72, 0x65, 0x65, 0, 0, 0, 0, 0, 0, 0, 24, 1, 2, 3, 4, 5, 6, 7, 8]

/-- The options `--dump free`. -/
def dump_free : Config := ⟨false, [[0x66, 0x72, 0x65, 0x65]]⟩

/-- An 8-byte file: one `mp4a` box of size 8, shorter than the 8 + 28 bytes the
walker skips when it enters an `mp4a` box. -/
def short_sample_entry : List Byte :=
  [0, 0, 0, 8, 0x6d, 0x70, 0x34, 0x61]

/-- The word below `levels[0]` is 20 in every iteration. -/
def junk_twenty : Nat → Nat := fun _ => 20

/-- A chain of `n` nested `moov` boxes, the outermost of the given size, each
holding only the next one. -/
def nested_moov : Nat → Nat → List Byte
  | 0, _ => []
  | n + 1, size =>
    [0, 0, Fin.ofNat (size / 256), Fin.ofNat size, 0x6d, 0x6f, 0x6f, 0x76]
      ++ nested_moov n (size - 8)

/-- A 520-byte file: 65 `moov` boxes nested in one another. -/
def deep_file : List Byte := nested_moov 65 520

/-- A 20-byte file: one `stsd` box of size 20, its 8 fixed bytes and 4 trailing
bytes. -/
def stsd_box : List Byte :=
  [0, 0, 0, 20, 0x73, 0x74, 0x73, 0x64, 0, 0, 0, 0, 0, 0, 0, 1, 9, 9, 9, 9]

/-- A 24-byte file: a `moov` box of size 24 that holds a `trak` box of size 16,
whose 8 payload bytes are the header of a `free` box of size 8. -/
def moov_trak_child : List Byte :=
  [0, 0, 0, 24, 0x6d, 0x6f, 0x6f, 0x76,
   0, 0, 0, 16, 0x74, 0x72, 0x61, 0x6b,
   0, 0, 0, 8, 0x66, 0x72, 0x65, 0x65]

/-- A 24-byte file: a `free` header with size field 16 followed by 16 zero bytes. -/
def leaf_with_trailing : List Byte :=
  [0, 0, 0, 16, 0x66, 0x72, 0x65, 0x65, 0, 0, 0, 0, 0, 0, 0, 0, 0, 0, 0, 0, 0, 0, 0, 0]

/-! ## Lemmas on the machine arithmetic and on reads -/

theorem byteAt_lt (data : List Byte) (i : Nat) : byteAt data i < 256 :=
  (data.getD i 0).isLt

theorem size_field_eq (data : List Byte) (offset : Nat) :
    size_field data offset
      = byteAt data offset * 2 ^ 24 + byteAt data (offset + 1) * 2 ^ 16
        + byteAt data (offset + 2) * 2 ^ 8 + byteAt data (offset + 3) := by
  have h0 := byteAt_lt data offset
  have h1 := byteAt_lt data (offset + 1)
  have h2 := byteAt_lt data (offset + 2)
  have h3 := byteAt_lt data (offset + 3)
  simp only [size_field, Nat.shiftLeft_eq]
  omega

theorem ext_size_field_eq (data : List Byte) (offset : Nat) :
    ext_size_field data offset
      = byteAt data (offset + 8) * 2 ^ 56 + byteAt data (offset + 9) * 2 ^ 48
        + byteAt data (offset + 10) * 2 ^ 40 + byteAt data (offset + 11) * 2 ^ 32
        + byteAt data (offset + 12) * 2 ^ 24 + byteAt data (offset + 13) * 2 ^ 16
        + byteAt data (offset + 14) * 2 ^ 8 + byteAt data (offset + 15) := by
  have h0 := byteAt_lt data (offset + 8)
  have h1 := byteAt_lt data (offset + 9)
  have h2 := byteAt_lt data (offset + 10)
  have h3 := byteAt_lt data (offset + 11)
  have h4 := byteAt_lt data (offset + 12)
  have h5 := byteAt_lt data (offset + 13)
  have h6 := byteAt_lt data (offset + 14)
  have h7 := byteAt_lt data (offset + 15)
  simp only [ext_size_field, Nat.shiftLeft_eq]
  omega

theorem window_four (data : List Byte) (offset : Nat) :
    window data offset 4
      = [byteAt data offset, byteAt data (offset + 1), byteAt data (offset + 2),
          byteAt data (offset + 3)] := rfl

theorem window_eight (data : List Byte) (offset : Nat) :
    window data offset 8
      = [byteAt data offset, byteAt data (offset + 1), byteAt data (offset + 2),
          byteAt data (offset + 3), byteAt data (offset + 4), byteAt data (offset + 5),
          byteAt data (offset + 6), byteAt data (offset + 7)] := rfl

/-- The size field the code computes with shifts is the big-endian value of the
first four bytes of the header. -/
theorem size_field_eq_be_value (data : List Byte) (offset : Nat) :
    size_field data offset = be_value (window data offset 4) := by
  rw [size_field_eq, window_four]
  simp only [be_value, List.foldl]
  omega

theorem atom_name_eq (type : Nat) :
    atom_name type
      = [type % 256, type / 2 ^ 8 % 256, type / 2 ^ 16 % 256, type / 2 ^ 24 % 256] := by
  have h : ∀ x : Nat, x &&& 0xff = x % 256 := fun x => by
    simpa using Nat.and_pow_two_sub_one_eq_mod x 8
  simp [atom_name, List.range_succ, Nat.shiftRight_eq_div_pow, h]

theorem atom_name_type_word (data : List Byte) (offset : Nat) :
    atom_name (type_word data offset)
      = [byteAt data (offset + 4), byteAt data (offset + 5), byteAt data (offset + 6),
          byteAt data (offset + 7)] := by
  have h4 := byteAt_lt data (offset + 4)
  have h5 := byteAt_lt data (offset + 5)
  have h6 := byteAt_lt data (offset + 6)
  have h7 := byteAt_lt data (offset + 7)
  rw [atom_name_eq]
  simp only [type_word, List.cons.injEq, and_true]
  refine ⟨?_, ?_, ?_, ?_⟩ <;> omega

theorem inside_of_le (data : List Byte) (i n : Nat) (h : i + n ≤ data.length) :
    inside data i n = true := by
  simp [inside, h]

theorem ext_size_field_eq_be_value (data : List Byte) (offset : Nat) :
    ext_size_field data offset = be_value (window data (offset + 8) 8) := by
  rw [ext_size_field_eq]
  show _ = be_value [byteAt data (offset + 8), byteAt data (offset + 9),
    byteAt data (offset + 10), byteAt data (offset + 11), byteAt data (offset + 12),
    byteAt data (offset + 13), byteAt data (offset + 14), byteAt data (offset + 15)]
  simp only [be_value, List.foldl]
  omega

theorem sub64_of_le {a b : Nat} (hab : b ≤ a) (ha : a < 2 ^ 64) : sub64 a b = a - b := by
  unfold sub64
  omega

/-! ## Lemmas on the registry -/

theorem load_word_inj {b c : List Nat} (hb : four_bytes b = true) (hc : four_bytes c = true) :
    load_word b = load_word c ↔ b = c := by
  match b, c, hb, hc with
  | [b0, b1, b2, b3], [c0, c1, c2, c3], hb, hc =>
    simp only [four_bytes, decide_eq_true_eq] at hb hc
    simp only [load_word, List.cons.injEq, and_true]
    omega

theorem atoms_scan_of_names (t : List Nat) (ht : four_bytes t = true)
    (l : List (String × Nat))
    (hl : ∀ e ∈ l, four_bytes (code_bytes e.1) = true ∧ load_word (code_bytes e.1) ≠ 0) :
    (atoms_scan (load_word t)
        (l.map (fun e => (⟨load_word (code_bytes e.1), e.2⟩ : ATOM)) ++ [⟨0, 0⟩])).map ATOM.size
      = (l.find? (fun e => decide (code_bytes e.1 = t))).map Prod.snd := by
  induction l with
  | nil => simp [atoms_scan]
  | cons e l ih =>
    have he := hl e (List.mem_cons_self _ _)
    have ih' := ih (fun x hx => hl x (List.mem_cons_of_mem _ hx))
    simp only [List.map_cons, List.cons_append, atoms_scan, he.2, if_false, List.find?_cons]
    by_cases hEq : code_bytes e.1 = t
    · simp [hEq]
    · have hne : ¬ load_word t = load_word (code_bytes e.1) := by
        intro h
        exact hEq ((load_word_inj ht he.1).1 h).symm
      simp [hEq, hne, ih']


theorem atoms_eq_table_names :
    atoms = table_names.map (fun e => (⟨load_word (code_bytes e.1), e.2⟩ : ATOM)) ++ [⟨0, 0⟩] := by
  decide

theorem table_names_wf :
    ∀ e ∈ table_names, four_bytes (code_bytes e.1) = true ∧ load_word (code_bytes e.1) ≠ 0 := by
  decide

theorem table_names_distinct :
    ∀ e ∈ table_names, ∀ f ∈ table_names, code_bytes e.1 = code_bytes f.1 → e = f := by
  decide

theorem table_names_sub : ∀ e ∈ table_names, e ∈ spec_registry := by decide

theorem spec_registry_sub : ∀ e ∈ spec_registry, e ∈ table_names := by decide

theorem find_by_code_iff (l : List (String × Nat)) (t : List Nat) (N : Nat)
    (hd : ∀ e ∈ l, ∀ f ∈ l, code_bytes e.1 = code_bytes f.1 → e = f) :
    (l.find? (fun e => decide (code_bytes e.1 = t))).map Prod.snd = some N
      ↔ ∃ name, (name, N) ∈ l ∧ code_bytes name = t := by
  constructor
  · intro h
    rcases Option.map_eq_some'.1 h with ⟨e, he, hN⟩
    have hp := List.find?_some he
    have hm := List.mem_of_find?_eq_some he
    refine ⟨e.1, ?_, of_decide_eq_true hp⟩
    rw [← hN]
    exact hm
  · rintro ⟨name, hm, hc⟩
    cases hf : l.find? (fun e => decide (code_bytes e.1 = t)) with
    | none =>
      have := List.find?_eq_none.1 hf (name, N) hm
      simp [hc] at this
    | some e =>
      have hp0 := List.find?_some hf
      have hp : code_bytes e.1 = t := of_decide_eq_true hp0
      have hm' := List.mem_of_find?_eq_some hf
      have : e = (name, N) := hd e hm' (name, N) hm (by rw [hp, hc])
      simp [this]

theorem spec_registry_distinct :
    ∀ e ∈ spec_registry, ∀ f ∈ spec_registry, code_bytes e.1 = code_bytes f.1 → e = f := by
  decide

theorem atoms_scan_iff_spec (data : List Byte) (offset N : Nat) :
    (atoms_scan (type_word data offset) atoms).map ATOM.size = some N
      ↔ ∃ name, (name, N) ∈ spec_registry ∧ code_bytes name = window data (offset + 4) 4 := by
  have hw : window data (offset + 4) 4
      = [byteAt data (offset + 4), byteAt data (offset + 5), byteAt data (offset + 6),
          byteAt data (offset + 7)] := rfl
  have h4 := byteAt_lt data (offset + 4)
  have h5 := byteAt_lt data (offset + 5)
  have h6 := byteAt_lt data (offset + 6)
  have h7 := byteAt_lt data (offset + 7)
  have hfour : four_bytes (window data (offset + 4) 4) = true := by
    rw [hw]; simp [four_bytes, h4, h5, h6, h7]
  have hword : type_word data offset = load_word (window data (offset + 4) 4) := by
    rw [hw]; rfl
  rw [hword, atoms_eq_table_names, atoms_scan_of_names _ hfour table_names table_names_wf,
    find_by_code_iff _ _ _ table_names_distinct]
  constructor
  · rintro ⟨name, hm, hc⟩
    exact ⟨name, table_names_sub _ hm, hc⟩
  · rintro ⟨name, hm, hc⟩
    exact ⟨name, spec_registry_sub _ hm, hc⟩

/-! ## Lemmas on the walker -/

theorem visit_leaf (data : List Byte) (cfg : Config) (junk : Nat) (s : State)
    (atom_size atom_type header_size : Nat) (h : atoms_scan atom_type atoms = none) :
    visit data cfg junk s atom_size atom_type header_size
      = Iter.visited
          ⟨s.data_offset, s.levels.length, atom_type, clamp atom_size data.length s.data_offset,
            header_size,
            dump_call cfg s.data_offset s.levels.length atom_type
              (clamp atom_size data.length s.data_offset)⟩
          ⟨fold_gap junk
              (to_off_t (add64 (to_size_t s.data_offset)
                (clamp atom_size data.length s.data_offset))) s.levels,
            pop_levels
              (fold_gap junk
                (to_off_t (add64 (to_size_t s.data_offset)
                  (clamp atom_size data.length s.data_offset))) s.levels) s.levels⟩ := by
  simp only [visit, h]

theorem fold_gap_cons (junk junk' : Nat) (x : Int) (b : Nat) (l : List Nat) :
    fold_gap junk x (b :: l) = fold_gap junk' x (b :: l) := rfl

theorem to_off_t_range (i : Int) : -2 ^ 63 ≤ to_off_t i ∧ to_off_t i < 2 ^ 63 := by
  unfold to_off_t
  omega

theorem to_off_t_of_range {i : Int} (h0 : -2 ^ 63 ≤ i) (h1 : i < 2 ^ 63) : to_off_t i = i := by
  unfold to_off_t
  omega

theorem to_size_t_of_nonneg {i : Int} (h0 : 0 ≤ i) (h1 : i < 2 ^ 64) :
    (to_size_t i : Int) = i := by
  unfold to_size_t
  omega

theorem to_size_t_natCast {n : Nat} (h : n < 2 ^ 64) : to_size_t (n : Int) = n := by
  unfold to_size_t
  omega

theorem clamp_le {a : Nat} {L off : Int} (ha : a < 2 ^ 64) (h0 : 0 ≤ off) (h1 : off < L)
    (hL : L < 2 ^ 63) (hc : clamp a L off < 2 ^ 63) :
    (clamp a L off : Int) ≤ L - off ∧ (clamp a L off : Int) ≤ a ∧ a < 2 ^ 63 := by
  unfold clamp to_size_t to_off_t at *
  omega

theorem size_field_lt (data : List Byte) (o : Nat) : size_field data o < 2 ^ 64 :=
  Nat.mod_lt _ (by decide)

theorem ext_size_field_lt (data : List Byte) (o : Nat) : ext_size_field data o < 2 ^ 64 :=
  Nat.mod_lt _ (by decide)

theorem sub64_lt (a b : Nat) : sub64 a b < 2 ^ 64 :=
  Nat.mod_lt _ (by decide)

theorem add64_lt (a b : Nat) : add64 a b < 2 ^ 64 :=
  Nat.mod_lt _ (by decide)

theorem atom_decode_ok {data : List Byte} {o t a ty h : Nat}
    (hd : atom_decode data o t = Decoded.ok a ty h) :
    o + 8 ≤ data.length ∧ 8 ≤ a ∧ a < 2 ^ 64 ∧ (h = 8 ∨ h = 16) := by
  have e1 := size_field_lt data o
  have e2 := ext_size_field_lt data o
  have e3 := sub64_lt t o
  unfold atom_decode atom_finish at hd
  split_ifs at hd <;> simp only [Decoded.ok.injEq, reduceCtorEq] at hd <;>
    (obtain ⟨rfl, -, rfl⟩ := hd
     simp only [inside, decide_eq_true_eq] at *
     refine ⟨by omega, by omega, by omega, by simp⟩)

theorem pop_levels_subset (x : Int) (l : List Nat) : ∀ b ∈ pop_levels x l, b ∈ l := by
  induction l with
  | nil => simp [pop_levels]
  | cons c l ih =>
    intro b hb
    unfold pop_levels at hb
    split_ifs at hb
    · exact List.mem_cons_of_mem _ (ih b hb)
    · exact hb

theorem pop_levels_nil (x : Int) (l : List Nat) (L : Nat) (hl : ∀ b ∈ l, b ≤ L)
    (hx : L ≤ to_size_t x) : pop_levels x l = [] := by
  induction l with
  | nil => rfl
  | cons c l ih =>
    have hc := hl c (List.mem_cons_self _ _)
    have := ih (fun b hb => hl b (List.mem_cons_of_mem _ hb))
    unfold pop_levels
    rw [if_pos (by omega)]
    exact this

theorem fold_gap_range (junk : Nat) (x : Int) (l : List Nat)
    (h0 : -2 ^ 63 ≤ x) (h1 : x < 2 ^ 63) :
    -2 ^ 63 ≤ fold_gap junk x l ∧ fold_gap junk x l < 2 ^ 63 := by
  unfold fold_gap
  split_ifs
  · exact to_off_t_range _
  · exact ⟨h0, h1⟩

/-- After a box whose reported size is below `2^63`: the size is clamped to the
rest of the file, the boundaries stay within the file, and the stack is empty
once the offset has reached the end of the file. -/
theorem visit_bounded {data : List Byte} {cfg : Config} {junk : Nat} {s : State}
    {a ty h : Nat} {v : Visit} {next : State}
    (hL : data.length < 2 ^ 63) (hs : Bounded data s) (h0 : 0 ≤ s.data_offset)
    (hin : s.data_offset + 8 ≤ data.length) (ha : a < 2 ^ 64)
    (hv : visit data cfg junk s a ty h = Iter.visited v next) (hsz : v.size < 2 ^ 63) :
    Bounded data next ∧ ((data.length : Int) ≤ next.data_offset → next.levels = [])
      ∧ v.offset + v.size ≤ data.length := by
  obtain ⟨hlo, hhi, hlev⟩ := hs
  unfold visit at hv
  cases hscan : atoms_scan ty atoms with
  | none =>
    simp only [hscan, Iter.visited.injEq] at hv
    obtain ⟨rfl, rfl⟩ := hv
    simp only at hsz ⊢
    have hc := clamp_le ha h0 (by omega) (by omega) hsz
    have hr := to_off_t_range
      (add64 (to_size_t s.data_offset) (clamp a data.length s.data_offset))
    have hf := fold_gap_range junk _ s.levels hr.1 hr.2
    refine ⟨⟨hf.1, hf.2, fun b hb => hlev b (pop_levels_subset _ _ b hb)⟩, ?_, by omega⟩
    intro hge
    apply pop_levels_nil _ _ data.length hlev
    have := to_size_t_of_nonneg (i := fold_gap junk
      (to_off_t (add64 (to_size_t s.data_offset) (clamp a data.length s.data_offset)))
      s.levels) (by omega) (by omega)
    omega
  | some e =>
    simp only [hscan] at hv
    split_ifs at hv with hlen
    simp only [Iter.visited.injEq] at hv
    obtain ⟨rfl, rfl⟩ := hv
    simp only at hsz ⊢
    have hc := clamp_le ha h0 (by omega) (by omega) hsz
    have hso := to_size_t_of_nonneg h0 (by omega)
    have hnew : add64 (to_size_t s.data_offset) (clamp a data.length s.data_offset)
        ≤ data.length := by
      unfold add64
      omega
    have hlev' : ∀ b ∈ add64 (to_size_t s.data_offset) (clamp a data.length s.data_offset)
        :: s.levels, b ≤ data.length := by
      intro b hb
      rcases List.mem_cons.1 hb with rfl | hb
      · exact hnew
      · exact hlev b hb
    have hr := to_off_t_range (s.data_offset + ((h + e.size) % 2 ^ 32 : Nat))
    have hf := fold_gap_range junk _
      (add64 (to_size_t s.data_offset) (clamp a data.length s.data_offset) :: s.levels)
      hr.1 hr.2
    refine ⟨⟨hf.1, hf.2, fun b hb => hlev' b (pop_levels_subset _ _ b hb)⟩, ?_, by omega⟩
    intro hge
    apply pop_levels_nil _ _ data.length hlev'
    have := to_size_t_of_nonneg (i := fold_gap junk
      (to_off_t (s.data_offset + ((h + e.size) % 2 ^ 32 : Nat)))
      (add64 (to_size_t s.data_offset) (clamp a data.length s.data_offset) :: s.levels))
      (by omega) (by omega)
    omega

/-- A successful decode at the current offset means the offset is inside the
file, with eight bytes after it. -/
theorem iteration_decode_inside {data : List Byte} {s : State} {a ty h : Nat}
    (hL : data.length < 2 ^ 63) (hs : Bounded data s)
    (hd : atom_decode data (to_size_t s.data_offset) (to_size_t data.length)
      = Decoded.ok a ty h) :
    0 ≤ s.data_offset ∧ s.data_offset + 8 ≤ data.length ∧ a < 2 ^ 64 := by
  obtain ⟨hlo, hhi, -⟩ := hs
  obtain ⟨hin, -, ha, -⟩ := atom_decode_ok hd
  unfold to_size_t at hin
  refine ⟨by omega, by omega, ha⟩

theorem iteration_recovered_bounded {data : List Byte} {cfg : Config} {junk : Nat}
    {s next : State} (hs : Bounded data s)
    (hi : iteration data cfg junk s = Iter.recovered next) : Bounded data next := by
  obtain ⟨hlo, hhi, hlev⟩ := hs
  unfold iteration at hi
  split at hi
  · exact absurd hi (by simp)
  · exact absurd hi (by simp)
  · rename_i a ty h hd
    split at hi
    · rename_i b rest hl
      split_ifs at hi
      · simp only [Iter.recovered.injEq] at hi
        subst hi
        have hr := to_off_t_range (b : Int)
        exact ⟨hr.1, hr.2, fun c hc => hlev c (by rw [hl]; exact List.mem_cons_of_mem _ hc)⟩
      · unfold visit at hi
        split at hi
        · split_ifs at hi
        · exact absurd hi (by simp)
    · unfold visit at hi
      split at hi
      · split_ifs at hi
      · exact absurd hi (by simp)

theorem iteration_visited_bounded {data : List Byte} {cfg : Config} {junk : Nat}
    {s next : State} {v : Visit} (hL : data.length < 2 ^ 63) (hs : Bounded data s)
    (hi : iteration data cfg junk s = Iter.visited v next) (hsz : v.size < 2 ^ 63) :
    Bounded data next ∧ ((data.length : Int) ≤ next.data_offset → next.levels = [])
      ∧ v.offset + v.size ≤ data.length := by
  unfold iteration at hi
  split at hi
  · exact absurd hi (by simp)
  · exact absurd hi (by simp)
  · rename_i a ty h hd
    obtain ⟨h0, hin, ha⟩ := iteration_decode_inside hL hs hd
    split at hi
    · split_ifs at hi
      exact visit_bounded hL hs h0 hin ha hi hsz
    · exact visit_bounded hL hs h0 hin ha hi hsz

theorem walk_visited {data : List Byte} {cfg : Config} {fuel : Nat} {junk : Nat → Nat}
    {s next : State} {v : Visit} (hg : s.data_offset < data.length)
    (hi : iteration data cfg (junk 0) s = Iter.visited v next) :
    main_loop data cfg (fuel + 1) junk s
      = ⟨(main_loop data cfg fuel (fun i => junk (i + 1)) next).halt,
          (main_loop data cfg fuel (fun i => junk (i + 1)) next).final,
          Iter.visited v next :: (main_loop data cfg fuel (fun i => junk (i + 1)) next).log⟩ := by
  simp only [main_loop, hg, if_true, hi]

theorem visit_container (data : List Byte) (cfg : Config) (junk : Nat) (s : State)
    (atom_size atom_type header_size : Nat) (e : ATOM)
    (h : atoms_scan atom_type atoms = some e) (hlen : s.levels.length < 64) :
    visit data cfg junk s atom_size atom_type header_size
      = Iter.visited
          ⟨s.data_offset, s.levels.length, atom_type, clamp atom_size data.length s.data_offset,
            header_size,
            dump_call cfg s.data_offset s.levels.length atom_type
              (clamp atom_size data.length s.data_offset)⟩
          ⟨fold_gap 0 (to_off_t (s.data_offset + ((header_size + e.size) % 2 ^ 32 : Nat)))
              (add64 (to_size_t s.data_offset) (clamp atom_size data.length s.data_offset)
                :: s.levels),
            pop_levels
              (fold_gap 0 (to_off_t (s.data_offset + ((header_size + e.size) % 2 ^ 32 : Nat)))
                (add64 (to_size_t s.data_offset) (clamp atom_size data.length s.data_offset)
                  :: s.levels))
              (add64 (to_size_t s.data_offset) (clamp atom_size data.length s.data_offset)
                :: s.levels)⟩ := by
  simp only [visit, h, hlen, if_true, fold_gap_cons junk 0]

theorem half_range_first (cfg : Config) (junk : Nat) : ∃ v next,
    iteration half_range_box cfg junk start = Iter.visited v next
      ∧ v.offset = 0 ∧ v.depth = 0 ∧ v.size = 2 ^ 63 :=
  ⟨_, _, rfl, rfl, rfl, rfl⟩

theorem cycle_step_start (cfg : Config) (junk : Nat) : ∃ v,
    iteration cycle_file cfg junk start = Iter.visited v ⟨8, [32]⟩ := by
  have hdec : atom_decode cycle_file (to_size_t start.data_offset)
      (to_size_t ((cycle_file.length : Nat) : Int)) = Decoded.ok 32 0x766f6f6d 8 := by decide
  have hscan : atoms_scan 0x766f6f6d atoms = some ⟨0x766f6f6d, 0⟩ := by decide
  have hvisit := visit_container cycle_file cfg junk start 32 0x766f6f6d 8 _ hscan (by decide)
  have hnext : (⟨fold_gap 0 (to_off_t (start.data_offset + ((8 + 0) % 2 ^ 32 : Nat)))
              (add64 (to_size_t start.data_offset) (clamp 32 cycle_file.length start.data_offset)
                :: start.levels),
            pop_levels
              (fold_gap 0 (to_off_t (start.data_offset + ((8 + 0) % 2 ^ 32 : Nat)))
                (add64 (to_size_t start.data_offset)
                  (clamp 32 cycle_file.length start.data_offset) :: start.levels))
              (add64 (to_size_t start.data_offset) (clamp 32 cycle_file.length start.data_offset)
                :: start.levels)⟩ : State) = ⟨8, [32]⟩ := by
    decide
  rw [hnext] at hvisit
  have hit : iteration cycle_file cfg junk start
      = visit cycle_file cfg junk start 32 0x766f6f6d 8 := by
    simp only [iteration, hdec]
    rfl
  exact ⟨_, hit.trans hvisit⟩

theorem cycle_step_small (cfg : Config) (junk : Nat) : ∃ v,
    iteration cycle_file cfg junk ⟨8, [32]⟩ = Iter.visited v ⟨16, [32]⟩ := by
  have hdec : atom_decode cycle_file (to_size_t (8 : Int))
      (to_size_t ((cycle_file.length : Nat) : Int)) = Decoded.ok 8 0x65657266 8 := by decide
  have hscan : atoms_scan 0x65657266 atoms = none := by decide
  have hchk : ¬ (32 < add64 (to_size_t (8 : Int)) 8) := by decide
  have hnext : (⟨fold_gap 0
              (to_off_t (add64 (to_size_t (8 : Int))
                (clamp 8 (cycle_file.length : Nat) (8 : Int)))) [32],
            pop_levels
              (fold_gap 0
                (to_off_t (add64 (to_size_t (8 : Int))
                  (clamp 8 (cycle_file.length : Nat) (8 : Int)))) [32]) [32]⟩ : State)
      = ⟨16, [32]⟩ := by
    decide
  simp only [iteration, hdec, hchk, if_false, visit_leaf _ _ _ _ _ _ _ hscan,
    fold_gap_cons junk 0, hnext]
  exact ⟨_, rfl⟩

theorem cycle_step_large (cfg : Config) (junk : Nat) : ∃ v,
    iteration cycle_file cfg junk ⟨16, [32]⟩ = Iter.visited v ⟨8, [32]⟩ := by
  have hdec : atom_decode cycle_file (to_size_t (16 : Int))
      (to_size_t ((cycle_file.length : Nat) : Int))
      = Decoded.ok (2 ^ 64 - 8) 0x65657266 16 := by decide
  have hscan : atoms_scan 0x65657266 atoms = none := by decide
  have hchk : ¬ (32 < add64 (to_size_t (16 : Int)) (2 ^ 64 - 8)) := by decide
  have hnext : (⟨fold_gap 0
              (to_off_t (add64 (to_size_t (16 : Int))
                (clamp (2 ^ 64 - 8) (cycle_file.length : Nat) (16 : Int)))) [32],
            pop_levels
              (fold_gap 0
                (to_off_t (add64 (to_size_t (16 : Int))
                  (clamp (2 ^ 64 - 8) (cycle_file.length : Nat) (16 : Int)))) [32]) [32]⟩ : State)
      = ⟨8, [32]⟩ := by
    decide
  simp only [iteration, hdec, hchk, if_false, visit_leaf _ _ _ _ _ _ _ hscan,
    fold_gap_cons junk 0, hnext]
  exact ⟨_, rfl⟩

theorem cycle_never_halts (cfg : Config) :
    ∀ (fuel : Nat) (junk : Nat → Nat),
      (main_loop cycle_file cfg fuel junk ⟨8, [32]⟩).halt = Halt.out_of_fuel
      ∧ (main_loop cycle_file cfg fuel junk ⟨16, [32]⟩).halt = Halt.out_of_fuel := by
  intro fuel
  induction fuel with
  | zero =>
    intro junk
    constructor <;> rfl
  | succ n ih =>
    intro junk
    obtain ⟨v, hv⟩ := cycle_step_small cfg (junk 0)
    obtain ⟨w, hw⟩ := cycle_step_large cfg (junk 0)
    constructor
    · rw [walk_visited (by decide) hv]
      exact (ih _).2
    · rw [walk_visited (by decide) hw]
      exact (ih _).1

theorem rewind_log :
    (main_loop rewind_file plain_config 3 zero_junk start).log
      = [Iter.visited ⟨0, 0, 0x766f6f6d, 24, 8, none⟩ ⟨8, [24]⟩,
         Iter.visited ⟨8, 1, 0x65657266, 2 ^ 64 - 8, 16, none⟩ ⟨0, [24]⟩,
         Iter.visited ⟨0, 1, 0x766f6f6d, 24, 8, none⟩ ⟨8, [24, 24]⟩] := by
  decide

/-- A container whose size is `2^63` or more is not clamped either: its boundary
stays on the stack when the loop exits at the end of the file. -/
theorem stack_left_by_oversized_container :
    (main_loop half_range_container plain_config 8 zero_junk start).halt = Halt.end_of_buffer
    ∧ (main_loop half_range_container plain_config 8 zero_junk start).final = ⟨16, [2 ^ 63]⟩
    ∧ last_recovered (main_loop half_range_container plain_config 8 zero_junk start).log
        = false := by
  decide

theorem visit_overflow_clamped {data : List Byte} {cfg : Config} {junk : Nat} {s : State}
    {a ty h : Nat} {v : Visit}
    (hL : data.length < 2 ^ 63) (h0 : 0 ≤ s.data_offset)
    (hin : s.data_offset + 8 ≤ data.length) (ha : a < 2 ^ 64)
    (hv : visit data cfg junk s a ty h = Iter.overflow v) (hsz : v.size < 2 ^ 63) :
    v.offset + v.size ≤ data.length := by
  unfold visit at hv
  split at hv
  · split_ifs at hv
    simp only [Iter.overflow.injEq] at hv
    subst hv
    simp only at hsz ⊢
    have hc := clamp_le ha h0 (by omega) (by omega) hsz
    omega
  · exact absurd hv (by simp)

theorem iteration_overflow_clamped {data : List Byte} {cfg : Config} {junk : Nat}
    {s : State} {v : Visit} (hL : data.length < 2 ^ 63) (hs : Bounded data s)
    (hi : iteration data cfg junk s = Iter.overflow v) (hsz : v.size < 2 ^ 63) :
    v.offset + v.size ≤ data.length := by
  unfold iteration at hi
  split at hi
  · exact absurd hi (by simp)
  · exact absurd hi (by simp)
  · rename_i a ty h hd
    obtain ⟨h0, hin, ha⟩ := iteration_decode_inside hL hs hd
    split at hi
    · split_ifs at hi
      exact visit_overflow_clamped hL h0 hin ha hi hsz
    · exact visit_overflow_clamped hL h0 hin ha hi hsz

/-- The clamp works below `2^63`: in a run on a file shorter than `2^63` bytes in
which every reported size is below `2^63`, every reported box ends within the
file. -/
theorem main_loop_sizes_clamped (data : List Byte) (cfg : Config) (hL : data.length < 2 ^ 63) :
    ∀ (fuel : Nat) (junk : Nat → Nat) (s : State), Bounded data s →
      (∀ v ∈ visits (main_loop data cfg fuel junk s).log, v.size < 2 ^ 63) →
      ∀ v ∈ visits (main_loop data cfg fuel junk s).log, v.offset + v.size ≤ data.length := by
  intro fuel
  induction fuel with
  | zero =>
    intro junk s _ _ v hv
    unfold main_loop at hv
    split_ifs at hv <;> simp [visits] at hv
  | succ n ih =>
    intro junk s hs hsize v hv
    unfold main_loop at hsize hv
    by_cases hg : s.data_offset < data.length
    · simp only [hg, if_true] at hsize hv
      cases hit : iteration data cfg (junk 0) s with
      | fault => simp [hit, visits] at hv
      | stop => simp [hit, visits] at hv
      | overflow w =>
        simp only [hit, visits, List.mem_singleton] at hsize hv
        subst hv
        exact iteration_overflow_clamped hL hs hit (hsize v rfl)
      | recovered next =>
        simp only [hit, visits] at hsize hv
        exact ih _ next (iteration_recovered_bounded hs hit) hsize v hv
      | visited w next =>
        simp only [hit, visits, List.mem_cons] at hsize hv
        obtain ⟨hb, -, hw⟩ := iteration_visited_bounded hL hs hit (hsize w (Or.inl rfl))
        rcases hv with rfl | hv
        · exact hw
        · exact ih _ next hb (fun x hx => hsize x (Or.inr hx)) v hv
    · simp [hg, visits] at hv

theorem start_nested (data : List Byte) : Nested data start := by
  refine ⟨by decide, by decide, ?_, ?_, ?_⟩ <;> simp [start]

theorem nested_bounded {data : List Byte} {s : State} (h : Nested data s) : Bounded data s :=
  ⟨by have := h.1; omega, h.2.1, h.2.2.1⟩

theorem pop_levels_nested (x : Int) (hx0 : 0 ≤ x) (hx1 : x < 2 ^ 63) (l : List Nat)
    (hl : l.Pairwise (· ≤ ·)) :
    (pop_levels x l).Pairwise (· ≤ ·) ∧ ∀ b ∈ pop_levels x l, x < b := by
  induction l with
  | nil => simp [pop_levels]
  | cons c l ih =>
    have hc := List.pairwise_cons.1 hl
    unfold pop_levels
    split_ifs with hle
    · exact ih hc.2
    · refine ⟨hl, ?_⟩
      have hs := to_size_t_of_nonneg hx0 (by omega)
      intro b hb
      rcases List.mem_cons.1 hb with rfl | hb
      · omega
      · have := hc.1 b hb
        omega

theorem fold_gap_forward (junk : Nat) (x : Int) (l : List Nat) (L : Nat)
    (hx0 : 0 ≤ x) (hx1 : x ≤ L + 94) (hL : L + 102 < 2 ^ 63) (hl : ∀ b ∈ l, b ≤ L) :
    x ≤ fold_gap junk x l ∧ fold_gap junk x l < 2 ^ 63 := by
  have hs := to_size_t_of_nonneg hx0 (by omega)
  unfold fold_gap
  split_ifs with h
  · obtain ⟨h1, h2⟩ := h
    unfold sub64 at h2
    unfold to_off_t
    cases l with
    | nil =>
      simp only [levels_top] at h1 h2 ⊢
      omega
    | cons c l =>
      simp only [levels_top] at h1 h2 ⊢
      have := hl c (List.mem_cons_self _ _)
      omega
  · omega

theorem atoms_scan_mem {t : Nat} {l : List ATOM} {e : ATOM} (h : atoms_scan t l = some e) :
    e ∈ l := by
  induction l with
  | nil => simp [atoms_scan] at h
  | cons c l ih =>
    unfold atoms_scan at h
    split_ifs at h
    · simp only [Option.some.injEq] at h
      subst h
      exact List.mem_cons_self _ _
    · exact List.mem_cons_of_mem _ (ih h)

theorem atoms_size_le : ∀ e ∈ atoms, e.size ≤ 78 := by decide

theorem visit_nested {data : List Byte} {cfg : Config} {junk : Nat} {s : State}
    {a ty h : Nat} {v : Visit} {next : State}
    (hL : data.length + 102 < 2 ^ 63) (hs : Nested data s)
    (hin : s.data_offset + 8 ≤ data.length) (ha8 : 8 ≤ a) (ha : a < 2 ^ 64)
    (hh : h = 8 ∨ h = 16)
    (hfit : ∀ b ∈ s.levels, add64 (to_size_t s.data_offset) a ≤ b)
    (hv : visit data cfg junk s a ty h = Iter.visited v next) (hsz : v.size < 2 ^ 63) :
    Nested data next ∧ v.offset = s.data_offset ∧ s.data_offset + 8 ≤ next.data_offset
      ∧ ∀ e, atoms_scan v.type atoms = some e →
          v.offset + v.header_size + e.size ≤ next.data_offset := by
  obtain ⟨h0, h1, hlev, hpw, hle⟩ := hs
  have hso := to_size_t_of_nonneg h0 (by omega)
  unfold visit at hv
  cases hscan : atoms_scan ty atoms with
  | none =>
    simp only [hscan, Iter.visited.injEq] at hv
    obtain ⟨rfl, rfl⟩ := hv
    simp only at hsz
    have hc := clamp_le ha h0 (by omega) (by omega) hsz
    have hc8 : 8 ≤ clamp a data.length s.data_offset := by
      unfold clamp to_size_t to_off_t at *
      omega
    have hx : to_off_t (add64 (to_size_t s.data_offset) (clamp a data.length s.data_offset))
        = s.data_offset + clamp a data.length s.data_offset := by
      unfold to_off_t add64
      omega
    rw [hx]
    have hf := fold_gap_forward junk
      (s.data_offset + clamp a data.length s.data_offset) s.levels data.length
      (by omega) (by omega) hL hlev
    have hp := pop_levels_nested
      (fold_gap junk (s.data_offset + clamp a data.length s.data_offset) s.levels)
      (by omega) hf.2 s.levels hpw
    refine ⟨⟨?_, hf.2, fun b hb => hlev b (pop_levels_subset _ _ b hb), hp.1, ?_⟩,
      rfl, ?_, ?_⟩
    · dsimp only
      omega
    · intro b hb
      have := hp.2 b hb
      dsimp only
      omega
    · dsimp only
      omega
    · intro e he
      rw [hscan] at he
      exact absurd he (by simp)
  | some e =>
    simp only [hscan] at hv
    split_ifs at hv with hlen
    simp only [Iter.visited.injEq] at hv
    obtain ⟨rfl, rfl⟩ := hv
    simp only at hsz
    have hc := clamp_le ha h0 (by omega) (by omega) hsz
    have he78 := atoms_size_le e (atoms_scan_mem hscan)
    have hnew : (add64 (to_size_t s.data_offset) (clamp a data.length s.data_offset) : Int)
        = s.data_offset + clamp a data.length s.data_offset := by
      unfold add64
      omega
    have hx : to_off_t (s.data_offset + ((h + e.size) % 2 ^ 32 : Nat))
        = s.data_offset + h + e.size := by
      unfold to_off_t
      omega
    rw [hx]
    have hlev' : ∀ b ∈ add64 (to_size_t s.data_offset) (clamp a data.length s.data_offset)
        :: s.levels, b ≤ data.length := by
      intro b hb
      rcases List.mem_cons.1 hb with rfl | hb
      · omega
      · exact hlev b hb
    have hpw' : (add64 (to_size_t s.data_offset) (clamp a data.length s.data_offset)
        :: s.levels).Pairwise (· ≤ ·) := by
      refine List.pairwise_cons.2 ⟨?_, hpw⟩
      intro b hb
      have := hfit b hb
      unfold add64 at this hnew ⊢
      omega
    have hf := fold_gap_forward junk (s.data_offset + h + e.size)
      (add64 (to_size_t s.data_offset) (clamp a data.length s.data_offset) :: s.levels)
      data.length (by omega) (by omega) hL hlev'
    have hp := pop_levels_nested
      (fold_gap junk (s.data_offset + h + e.size)
        (add64 (to_size_t s.data_offset) (clamp a data.length s.data_offset) :: s.levels))
      (by omega) hf.2 _ hpw'
    refine ⟨⟨?_, hf.2, fun b hb => hlev' b (pop_levels_subset _ _ b hb), hp.1, ?_⟩,
      rfl, ?_, ?_⟩
    · dsimp only
      omega
    · intro b hb
      have := hp.2 b hb
      dsimp only
      omega
    · dsimp only
      omega
    · intro e' he'
      rw [hscan] at he'
      simp only [Option.some.injEq] at he'
      subst he'
      dsimp only
      omega

theorem iteration_recovered_nested {data : List Byte} {cfg : Config} {junk : Nat}
    {s next : State} (hL : data.length + 102 < 2 ^ 63) (hs : Nested data s)
    (hi : iteration data cfg junk s = Iter.recovered next) :
    Nested data next ∧ s.data_offset ≤ next.data_offset := by
  obtain ⟨h0, h1, hlev, hpw, hle⟩ := hs
  unfold iteration at hi
  split at hi
  · exact absurd hi (by simp)
  · exact absurd hi (by simp)
  · split at hi
    · rename_i b rest hl
      split_ifs at hi
      · simp only [Iter.recovered.injEq] at hi
        subst hi
        rw [hl] at hlev hpw hle
        have hb := hlev b (List.mem_cons_self _ _)
        have hob := hle b (List.mem_cons_self _ _)
        have hpc := List.pairwise_cons.1 hpw
        have hx : to_off_t (b : Int) = b := by
          unfold to_off_t
          omega
        refine ⟨⟨?_, ?_, fun c hc => hlev c (List.mem_cons_of_mem _ hc), hpc.2, ?_⟩, ?_⟩
        · dsimp only
          omega
        · dsimp only
          omega
        · intro c hc
          have := hpc.1 c hc
          dsimp only
          omega
        · dsimp only
          omega
      · unfold visit at hi
        split at hi
        · split_ifs at hi
        · exact absurd hi (by simp)
    · unfold visit at hi
      split at hi
      · split_ifs at hi
      · exact absurd hi (by simp)

theorem iteration_visited_nested {data : List Byte} {cfg : Config} {junk : Nat}
    {s next : State} {v : Visit} (hL : data.length + 102 < 2 ^ 63) (hs : Nested data s)
    (hi : iteration data cfg junk s = Iter.visited v next) (hsz : v.size < 2 ^ 63) :
    Nested data next ∧ v.offset = s.data_offset ∧ s.data_offset + 8 ≤ next.data_offset
      ∧ ∀ e, atoms_scan v.type atoms = some e →
          v.offset + v.header_size + e.size ≤ next.data_offset := by
  have hpw := hs.2.2.2.1
  unfold iteration at hi
  split at hi
  · exact absurd hi (by simp)
  · exact absurd hi (by simp)
  · rename_i a ty h hd
    obtain ⟨h0, hin, ha⟩ := iteration_decode_inside (by omega) (nested_bounded hs) hd
    obtain ⟨-, ha8, -, hh⟩ := atom_decode_ok hd
    split at hi
    · rename_i b rest hl
      split_ifs at hi with hchk
      refine visit_nested hL hs hin ha8 ha hh ?_ hi hsz
      rw [hl] at hpw ⊢
      have hpc := List.pairwise_cons.1 hpw
      intro c hc
      rcases List.mem_cons.1 hc with rfl | hc
      · omega
      · have := hpc.1 c hc
        omega
    · rename_i hl
      refine visit_nested hL hs hin ha8 ha hh ?_ hi hsz
      rw [hl]
      intro c hc
      simp at hc

theorem iteration_overflow_offset {data : List Byte} {cfg : Config} {junk : Nat}
    {s : State} {v : Visit} (hi : iteration data cfg junk s = Iter.overflow v) :
    v.offset = s.data_offset := by
  unfold iteration at hi
  split at hi
  · exact absurd hi (by simp)
  · exact absurd hi (by simp)
  · have hv : ∀ a ty h, visit data cfg junk s a ty h = Iter.overflow v →
        v.offset = s.data_offset := by
      intro a ty h hv
      unfold visit at hv
      split at hv
      · split_ifs at hv
        simp only [Iter.overflow.injEq] at hv
        subst hv
        rfl
      · exact absurd hv (by simp)
    split at hi
    · split_ifs at hi
      exact hv _ _ _ hi
    · exact hv _ _ _ hi

/-- Offsets never go back while sizes stay below `2^63`: every box a run reports
is at or after the offset the run started from. -/
theorem main_loop_offsets_forward (data : List Byte) (cfg : Config)
    (hL : data.length + 102 < 2 ^ 63) :
    ∀ (fuel : Nat) (junk : Nat → Nat) (s : State), Nested data s →
      (∀ v ∈ visits (main_loop data cfg fuel junk s).log, v.size < 2 ^ 63) →
      ∀ v ∈ visits (main_loop data cfg fuel junk s).log, s.data_offset ≤ v.offset := by
  intro fuel
  induction fuel with
  | zero =>
    intro junk s _ _ v hv
    unfold main_loop at hv
    split_ifs at hv <;> simp [visits] at hv
  | succ n ih =>
    intro junk s hs hsize v hv
    unfold main_loop at hsize hv
    by_cases hg : s.data_offset < data.length
    · simp only [hg, if_true] at hsize hv
      cases hit : iteration data cfg (junk 0) s with
      | fault => simp [hit, visits] at hv
      | stop => simp [hit, visits] at hv
      | overflow w =>
        simp only [hit, visits, List.mem_singleton] at hv
        subst hv
        exact le_of_eq (iteration_overflow_offset hit).symm
      | recovered next =>
        simp only [hit, visits] at hsize hv
        obtain ⟨hn, hmono⟩ := iteration_recovered_nested hL hs hit
        have := ih _ next hn hsize v hv
        omega
      | visited w next =>
        simp only [hit, visits, List.mem_cons] at hsize hv
        obtain ⟨hn, hw, hmono, -⟩ := iteration_visited_nested hL hs hit (hsize w (Or.inl rfl))
        rcases hv with rfl | hv
        · omega
        · have := ih _ next hn (fun x hx => hsize x (Or.inr hx)) v hv
          omega
    · simp [hg, visits] at hv

theorem visits_of_getElem {log : List Iter} {j : Nat} {e : Visit} {ej : State}
    (h : log[j]? = some (Iter.visited e ej)) : e ∈ visits log := by
  induction log generalizing j with
  | nil => simp at h
  | cons x rest ih =>
    cases j with
    | zero =>
      simp only [List.getElem?_cons_zero, Option.some.injEq] at h
      subst h
      simp [visits]
    | succ j =>
      simp only [List.getElem?_cons_succ] at h
      have := ih h
      cases x <;> simp [visits, this]

theorem main_loop_child_floor (data : List Byte) (cfg : Config) (hL : data.length + 102 < 2 ^ 63) :
    ∀ (fuel : Nat) (junk : Nat → Nat) (s : State), Nested data s →
      (∀ v ∈ visits (main_loop data cfg fuel junk s).log, v.size < 2 ^ 63) →
      ∀ (i j : Nat) (c e : Visit) (ci ej : State) (a : ATOM), i < j →
        (main_loop data cfg fuel junk s).log[i]? = some (Iter.visited c ci) →
        (main_loop data cfg fuel junk s).log[j]? = some (Iter.visited e ej) →
        atoms_scan c.type atoms = some a →
        c.offset + c.header_size + a.size ≤ e.offset := by
  intro fuel
  induction fuel with
  | zero =>
    intro junk s _ _ i j c e ci ej a _ hi
    unfold main_loop at hi
    split_ifs at hi <;> simp at hi
  | succ n ih =>
    intro junk s hs hsize i j c e ci ej a hij hi hj ha
    unfold main_loop at hsize hi hj
    by_cases hg : s.data_offset < data.length
    · simp only [hg, if_true] at hsize hi hj
      obtain ⟨j, rfl⟩ : ∃ j', j = j' + 1 := ⟨j - 1, by omega⟩
      cases hit : iteration data cfg (junk 0) s with
      | fault => simp [hit] at hi
      | stop => simp [hit] at hi
      | overflow w =>
        simp only [hit] at hj
        simp at hj
      | recovered next =>
        simp only [hit, visits] at hsize hi hj
        obtain ⟨hn, -⟩ := iteration_recovered_nested hL hs hit
        cases i with
        | zero => simp at hi
        | succ i =>
          simp only [List.getElem?_cons_succ] at hi hj
          exact ih _ next hn hsize i j c e ci ej a (by omega) hi hj ha
      | visited w next =>
        simp only [hit, visits, List.mem_cons] at hsize hi hj
        obtain ⟨hn, hw, -, hfloor⟩ :=
          iteration_visited_nested hL hs hit (hsize w (Or.inl rfl))
        simp only [List.getElem?_cons_succ] at hj
        cases i with
        | zero =>
          simp only [List.getElem?_cons_zero, Option.some.injEq, Iter.visited.injEq] at hi
          obtain ⟨rfl, rfl⟩ := hi
          have h1 := hfloor a ha
          have h2 := main_loop_offsets_forward data cfg hL n _ _ hn
            (fun x hx => hsize x (Or.inr hx)) e (visits_of_getElem hj)
          omega
        | succ i =>
          simp only [List.getElem?_cons_succ] at hi
          exact ih _ next hn (fun x hx => hsize x (Or.inr hx)) i j c e ci ej a (by omega)
            hi hj ha
    · simp [hg] at hi

/-- The child bound holds while sizes stay below `2^63`: on a file short enough
that no offset wraps, a run in which every reported size is below `2^63` satisfies
`child_floor`. -/
theorem child_floor_of_small_sizes (data : List Byte) (cfg : Config) (fuel : Nat)
    (junk : Nat → Nat) (hL : data.length + 102 < 2 ^ 63)
    (hsize : ∀ v ∈ visits (main_loop data cfg fuel junk start).log, v.size < 2 ^ 63) :
    child_floor (main_loop data cfg fuel junk start).log := by
  intro i j c e ci ej a hij hi hj ha _
  exact main_loop_child_floor data cfg hL fuel junk start (start_nested data) hsize
    i j c e ci ej a hij hi hj ha
theorem pop_levels_length (x : Int) (l : List Nat) : (pop_levels x l).length ≤ l.length := by
  induction l with
  | nil => simp [pop_levels]
  | cons c l ih =>
    unfold pop_levels
    split_ifs
    · simp only [List.length_cons]
      omega
    · exact le_refl _

theorem visit_length {data : List Byte} {cfg : Config} {junk : Nat} {s next : State}
    {a ty h : Nat} {v : Visit} (hv : visit data cfg junk s a ty h = Iter.visited v next) :
    next.levels.length ≤ s.levels.length + 1 := by
  unfold visit at hv
  split at hv
  · split_ifs at hv
    simp only [Iter.visited.injEq] at hv
    obtain ⟨-, rfl⟩ := hv
    refine le_trans (pop_levels_length _ _) ?_
    simp
  · simp only [Iter.visited.injEq] at hv
    obtain ⟨-, rfl⟩ := hv
    exact le_trans (pop_levels_length _ _) (Nat.le_succ _)

theorem iteration_visited_length {data : List Byte} {cfg : Config} {junk : Nat}
    {s next : State} {v : Visit} (hi : iteration data cfg junk s = Iter.visited v next) :
    next.levels.length ≤ s.levels.length + 1 := by
  unfold iteration at hi
  split at hi
  · exact absurd hi (by simp)
  · exact absurd hi (by simp)
  · split at hi
    · split_ifs at hi
      exact visit_length hi
    · exact visit_length hi

theorem iteration_recovered_length {data : List Byte} {cfg : Config} {junk : Nat}
    {s next : State} (hi : iteration data cfg junk s = Iter.recovered next) :
    next.levels.length + 1 = s.levels.length := by
  unfold iteration at hi
  split at hi
  · exact absurd hi (by simp)
  · exact absurd hi (by simp)
  · split at hi
    · rename_i b rest hl
      split_ifs at hi
      · simp only [Iter.recovered.injEq] at hi
        subst hi
        rw [hl]
        rfl
      · unfold visit at hi
        split at hi
        · split_ifs at hi
        · exact absurd hi (by simp)
    · unfold visit at hi
      split at hi
      · split_ifs at hi
      · exact absurd hi (by simp)

theorem main_loop_halts_from (data : List Byte) (cfg : Config) (hL : data.length + 102 < 2 ^ 63) :
    ∀ (fuel : Nat) (junk : Nat → Nat) (s : State), Nested data s →
      (∀ v ∈ visits (main_loop data cfg fuel junk s).log, v.size < 2 ^ 63) →
      2 * ((data.length : Int) - s.data_offset) + 8 * s.levels.length < 8 * fuel →
      (main_loop data cfg fuel junk s).halt ≠ Halt.out_of_fuel := by
  intro fuel
  induction fuel with
  | zero =>
    intro junk s hs _ hfuel
    unfold main_loop
    by_cases hg : s.data_offset < data.length
    · have := hs.1
      simp only [Nat.cast_zero] at hfuel
      omega
    · simp [hg]
  | succ n ih =>
    intro junk s hs hsize hfuel
    unfold main_loop at hsize ⊢
    by_cases hg : s.data_offset < data.length
    · simp only [hg, if_true] at hsize ⊢
      cases hit : iteration data cfg (junk 0) s with
      | fault => simp
      | stop => simp
      | overflow w => simp
      | recovered next =>
        simp only [hit, visits] at hsize ⊢
        obtain ⟨hn, hmono⟩ := iteration_recovered_nested hL hs hit
        have hlen := iteration_recovered_length hit
        apply ih _ next hn hsize
        push_cast at hfuel ⊢
        omega
      | visited w next =>
        simp only [hit, visits, List.mem_cons] at hsize ⊢
        obtain ⟨hn, -, hmono, -⟩ := iteration_visited_nested hL hs hit (hsize w (Or.inl rfl))
        have hlen := iteration_visited_length hit
        apply ih _ next hn (fun x hx => hsize x (Or.inr hx))
        push_cast at hfuel ⊢
        omega
    · simp [hg]

/-- The loop halts while sizes stay below `2^63`: on a file of `L < 2^63 - 102` bytes,
a run allowed more than `L / 4` iterations in which every reported size is below
`2^63` does not use them up. -/
theorem main_loop_halts_of_small_sizes (data : List Byte) (cfg : Config) (fuel : Nat)
    (junk : Nat → Nat) (hL : data.length + 102 < 2 ^ 63) (hfuel : data.length < 4 * fuel)
    (hsize : ∀ v ∈ visits (main_loop data cfg fuel junk start).log, v.size < 2 ^ 63) :
    (main_loop data cfg fuel junk start).halt ≠ Halt.out_of_fuel := by
  apply main_loop_halts_from data cfg hL fuel junk start (start_nested data) hsize
  simp only [start, List.length_nil, Nat.cast_zero]
  omega

/-! ## Lemmas for evaluating runs and for the run invariants -/

theorem iteration_top {data : List Byte} {cfg : Config} {junk : Nat} {s : State}
    {a ty h : Nat} (hlev : s.levels = [])
    (hdec : atom_decode data (to_size_t s.data_offset) (to_size_t data.length)
      = Decoded.ok a ty h) :
    iteration data cfg junk s = visit data cfg junk s a ty h := by
  unfold iteration
  rw [hdec, hlev]

theorem iteration_inside {data : List Byte} {cfg : Config} {junk : Nat} {s : State}
    {a ty h b : Nat} {rest : List Nat} (hlev : s.levels = b :: rest)
    (hdec : atom_decode data (to_size_t s.data_offset) (to_size_t data.length)
      = Decoded.ok a ty h)
    (hok : ¬ b < add64 (to_size_t s.data_offset) a) :
    iteration data cfg junk s = visit data cfg junk s a ty h := by
  unfold iteration
  rw [hdec, hlev]
  simp only [hok, if_false]

theorem iteration_recover {data : List Byte} {cfg : Config} {junk : Nat} {s : State}
    {a ty h b : Nat} {rest : List Nat} (hlev : s.levels = b :: rest)
    (hdec : atom_decode data (to_size_t s.data_offset) (to_size_t data.length)
      = Decoded.ok a ty h)
    (hviol : b < add64 (to_size_t s.data_offset) a) :
    iteration data cfg junk s = Iter.recovered ⟨to_off_t b, rest⟩ := by
  unfold iteration
  rw [hdec, hlev]
  simp only [hviol, if_true]

theorem atom_decode_plain {data : List Byte} {o t s : Nat} (hin : o + 8 ≤ data.length)
    (hrem : 8 ≤ sub64 t o) (hs : size_field data o = s) (h8 : 8 ≤ s) :
    atom_decode data o t = Decoded.ok s (type_word data o) 8 := by
  have hin4 : inside data o 4 = true := inside_of_le _ _ _ (by omega)
  have hin8 : inside data (o + 4) 4 = true := inside_of_le _ _ _ (by omega)
  have hlt : ¬ sub64 t o < 8 := by omega
  have h0 : ¬ s = 0 := by omega
  have h1 : ¬ s = 1 := by omega
  have hs8 : ¬ s < 8 := by omega
  unfold atom_decode atom_finish
  rw [hs, hin4, hin8]
  simp only [hlt, h0, h1, hs8, if_false, if_true]

theorem header_of_window {data : List Byte} {o s0 s1 s2 s3 t0 t1 t2 t3 : Nat}
    (h : window data o 8 = [s0, s1, s2, s3, t0, t1, t2, t3]) :
    size_field data o = s0 * 2 ^ 24 + s1 * 2 ^ 16 + s2 * 2 ^ 8 + s3
      ∧ type_word data o = t0 + t1 * 2 ^ 8 + t2 * 2 ^ 16 + t3 * 2 ^ 24 := by
  rw [window_eight] at h
  simp only [List.cons.injEq, and_true] at h
  obtain ⟨rfl, rfl, rfl, rfl, rfl, rfl, rfl, rfl⟩ := h
  exact ⟨size_field_eq data o, rfl⟩

theorem walk_recovered {data : List Byte} {cfg : Config} {fuel : Nat} {junk : Nat → Nat}
    {s next : State} (hg : s.data_offset < data.length)
    (hi : iteration data cfg (junk 0) s = Iter.recovered next) :
    main_loop data cfg (fuel + 1) junk s
      = ⟨(main_loop data cfg fuel (fun i => junk (i + 1)) next).halt,
          (main_loop data cfg fuel (fun i => junk (i + 1)) next).final,
          Iter.recovered next :: (main_loop data cfg fuel (fun i => junk (i + 1)) next).log⟩ := by
  simp only [main_loop, hg, if_true, hi]

theorem main_loop_at_end {data : List Byte} {cfg : Config} {fuel : Nat} {junk : Nat → Nat}
    {s : State} (hg : ¬ s.data_offset < data.length) :
    main_loop data cfg fuel junk s = ⟨Halt.end_of_buffer, s, []⟩ := by
  cases fuel <;> simp only [main_loop, hg, if_false]

theorem walk_stop {data : List Byte} {cfg : Config} {fuel : Nat} {junk : Nat → Nat}
    {s : State} (hg : s.data_offset < data.length)
    (hi : iteration data cfg (junk 0) s = Iter.stop) :
    main_loop data cfg (fuel + 1) junk s = ⟨Halt.decode_failed, s, []⟩ := by
  simp only [main_loop, hg, if_true, hi]

theorem size_field_lt32 (data : List Byte) (o : Nat) : size_field data o < 2 ^ 32 := by
  have h0 := byteAt_lt data o
  have h1 := byteAt_lt data (o + 1)
  have h2 := byteAt_lt data (o + 2)
  have h3 := byteAt_lt data (o + 3)
  rw [size_field_eq]
  omega

theorem iteration_of_fits {data : List Byte} {cfg : Config} {junk : Nat} {s : State}
    {a ty h : Nat}
    (hdec : atom_decode data (to_size_t s.data_offset) (to_size_t data.length)
      = Decoded.ok a ty h)
    (hfit : violates s a = false) :
    iteration data cfg junk s = visit data cfg junk s a ty h := by
  cases hlev : s.levels with
  | nil => exact iteration_top hlev hdec
  | cons b rest =>
    refine iteration_inside hlev hdec ?_
    simpa [violates, hlev] using hfit

theorem iteration_container_eval {data : List Byte} {cfg : Config} {junk : Nat} {s : State}
    {a ty h c : Nat} {e : ATOM} {next : State}
    (hdec : atom_decode data (to_size_t s.data_offset) (to_size_t data.length)
      = Decoded.ok a ty h)
    (hfit : violates s a = false) (hscan : atoms_scan ty atoms = some e)
    (hlen : s.levels.length < 64) (hclamp : clamp a data.length s.data_offset = c)
    (hnext : (⟨fold_gap 0 (to_off_t (s.data_offset + ((h + e.size) % 2 ^ 32 : Nat)))
            (add64 (to_size_t s.data_offset) c :: s.levels),
          pop_levels (fold_gap 0 (to_off_t (s.data_offset + ((h + e.size) % 2 ^ 32 : Nat)))
            (add64 (to_size_t s.data_offset) c :: s.levels))
            (add64 (to_size_t s.data_offset) c :: s.levels)⟩ : State) = next) :
    iteration data cfg junk s
      = Iter.visited ⟨s.data_offset, s.levels.length, ty, c, h,
          dump_call cfg s.data_offset s.levels.length ty c⟩ next := by
  rw [iteration_of_fits hdec hfit, visit_container data cfg junk s a ty h e hscan hlen, hclamp,
    hnext]

theorem iteration_recover_eval {data : List Byte} {cfg : Config} {junk : Nat} {s : State}
    {a ty h b : Nat} {rest : List Nat}
    (hdec : atom_decode data (to_size_t s.data_offset) (to_size_t data.length)
      = Decoded.ok a ty h)
    (hlev : s.levels = b :: rest) (hviol : violates s a = true) :
    iteration data cfg junk s = Iter.recovered ⟨to_off_t b, rest⟩ := by
  refine iteration_recover hlev hdec ?_
  simpa [violates, hlev] using hviol

theorem atoms_scan_eq_spec_lookup (data : List Byte) (offset : Nat) :
    (atoms_scan (type_word data offset) atoms).map ATOM.size
      = spec_lookup (window data (offset + 4) 4) := by
  apply Option.ext
  intro N
  show _ = some N ↔ _ = some N
  rw [atoms_scan_iff_spec, spec_lookup, find_by_code_iff _ _ _ spec_registry_distinct]

theorem fold_gap_snap (junk : Nat) (x : Int) (B : Nat) (l : List Nat)
    (hx0 : 0 ≤ x) (hxB : x ≤ B) (hB : B < 2 ^ 63) (hgap : (B : Int) - x < 8) :
    fold_gap junk x (B :: l) = B := by
  simp only [fold_gap, levels_top, sub64, to_off_t, to_size_t]
  split_ifs with h
  · omega
  · omega

theorem pop_levels_reached (x : Int) (B : Nat) (hx0 : 0 ≤ x) (hx : x < 2 ^ 63)
    (hB : (B : Int) ≤ x) : pop_levels x [B] = [] := by
  have hs := to_size_t_of_nonneg hx0 (by omega)
  unfold pop_levels
  rw [if_pos (by omega)]
  rfl

theorem visit_visits (data : List Byte) (cfg : Config) (junk : Nat) (s : State)
    (a ty h : Nat) :
    visits [visit data cfg junk s a ty h]
      = [⟨s.data_offset, s.levels.length, ty, clamp a data.length s.data_offset, h,
          dump_call cfg s.data_offset s.levels.length ty
            (clamp a data.length s.data_offset)⟩] := by
  unfold visit
  split
  · split_ifs <;> rfl
  · rfl

/-- What a reported box records: the offset and the depth of the state the
iteration started in, and the decoded size after the clamp. -/
theorem iteration_visits {data : List Byte} {cfg : Config} {junk : Nat} {s : State}
    {v : Visit} (hv : v ∈ visits [iteration data cfg junk s]) :
    ∃ a ty h, atom_decode data (to_size_t s.data_offset) (to_size_t data.length)
        = Decoded.ok a ty h
      ∧ violates s a = false
      ∧ v = ⟨s.data_offset, s.levels.length, ty, clamp a data.length s.data_offset, h,
          dump_call cfg s.data_offset s.levels.length ty
            (clamp a data.length s.data_offset)⟩ := by
  unfold iteration at hv
  split at hv
  · simp [visits] at hv
  · simp [visits] at hv
  · rename_i a ty h hd
    refine ⟨a, ty, h, hd, ?_⟩
    split at hv
    · rename_i b rest hl
      split_ifs at hv with hchk
      · simp [visits] at hv
      · rw [visit_visits, List.mem_singleton] at hv
        exact ⟨by simp [violates, hl, hchk], hv⟩
    · rename_i hl
      rw [visit_visits, List.mem_singleton] at hv
      exact ⟨by simp [violates, hl], hv⟩

theorem main_loop_with_states (data : List Byte) (cfg : Config) :
    ∀ (fuel : Nat) (junk : Nat → Nat) (s : State),
      ∀ p ∈ with_states s (main_loop data cfg fuel junk s).log,
        ∃ j, iteration data cfg j p.1 = p.2 := by
  intro fuel
  induction fuel with
  | zero =>
    intro junk s p hp
    unfold main_loop at hp
    split_ifs at hp <;> simp [with_states] at hp
  | succ n ih =>
    intro junk s p hp
    unfold main_loop at hp
    by_cases hg : s.data_offset < data.length
    · simp only [hg, if_true] at hp
      cases hit : iteration data cfg (junk 0) s with
      | fault => simp [hit, with_states] at hp
      | stop => simp [hit, with_states] at hp
      | overflow w =>
        simp only [hit, with_states, List.mem_singleton] at hp
        subst hp
        exact ⟨junk 0, hit⟩
      | recovered next =>
        simp only [hit, with_states, List.mem_cons, Iter.after, Option.getD_some] at hp
        rcases hp with rfl | hp
        · exact ⟨junk 0, hit⟩
        · exact ih _ next p hp
      | visited w next =>
        simp only [hit, with_states, List.mem_cons, Iter.after, Option.getD_some] at hp
        rcases hp with rfl | hp
        · exact ⟨junk 0, hit⟩
        · exact ih _ next p hp
    · simp [hg, with_states] at hp

theorem with_states_mem {s : State} {log : List Iter} {p : State × Iter}
    (hp : p ∈ with_states s log) : p.2 ∈ log := by
  induction log generalizing s with
  | nil => simp [with_states] at hp
  | cons x rest ih =>
    simp only [with_states, List.mem_cons] at hp
    rcases hp with rfl | hp
    · exact List.mem_cons_self _ _
    · exact List.mem_cons_of_mem _ (ih hp)

theorem visits_of_mem {log : List Iter} {x : Iter} {v : Visit} (hx : x ∈ log)
    (hv : v ∈ visits [x]) : v ∈ visits log := by
  induction log with
  | nil => simp at hx
  | cons y rest ih =>
    rcases List.mem_cons.1 hx with rfl | hx
    · cases x <;> simp_all [visits]
    · have := ih hx
      cases y <;> simp [visits, this]

theorem main_loop_visits_spaced (data : List Byte) (cfg : Config)
    (hL : data.length + 102 < 2 ^ 63) :
    ∀ (fuel : Nat) (junk : Nat → Nat) (s : State), Nested data s →
      (∀ v ∈ visits (main_loop data cfg fuel junk s).log, v.size < 2 ^ 63) →
      (visits (main_loop data cfg fuel junk s).log).Pairwise
        (fun v w => v.offset + 8 ≤ w.offset) := by
  intro fuel
  induction fuel with
  | zero =>
    intro junk s _ _
    unfold main_loop
    split_ifs <;> simp [visits]
  | succ n ih =>
    intro junk s hs hsize
    unfold main_loop at hsize ⊢
    by_cases hg : s.data_offset < data.length
    · simp only [hg, if_true] at hsize ⊢
      cases hit : iteration data cfg (junk 0) s with
      | fault => simp [visits]
      | stop => simp [visits]
      | overflow w => simp [visits]
      | recovered next =>
        simp only [hit, visits] at hsize ⊢
        exact ih _ next (iteration_recovered_nested hL hs hit).1 hsize
      | visited w next =>
        simp only [hit, visits, List.mem_cons] at hsize ⊢
        obtain ⟨hn, hw, hmono, -⟩ := iteration_visited_nested hL hs hit (hsize w (Or.inl rfl))
        refine List.pairwise_cons.2 ⟨?_, ih _ next hn (fun x hx => hsize x (Or.inr hx))⟩
        intro x hx
        have := main_loop_offsets_forward data cfg hL n _ next hn
          (fun y hy => hsize y (Or.inr hy)) x hx
        omega
    · simp [hg, visits]

theorem main_loop_nested (data : List Byte) (cfg : Config)
    (hL : data.length + 102 < 2 ^ 63) :
    ∀ (fuel : Nat) (junk : Nat → Nat) (s : State), Nested data s →
      (∀ v ∈ visits (main_loop data cfg fuel junk s).log, v.size < 2 ^ 63) →
      (∀ p ∈ with_states s (main_loop data cfg fuel junk s).log, Nested data p.1)
        ∧ Nested data (main_loop data cfg fuel junk s).final := by
  intro fuel
  induction fuel with
  | zero =>
    intro junk s hs _
    unfold main_loop
    split_ifs <;> simp [with_states, hs]
  | succ n ih =>
    intro junk s hs hsize
    unfold main_loop at hsize ⊢
    by_cases hg : s.data_offset < data.length
    · simp only [hg, if_true] at hsize ⊢
      cases hit : iteration data cfg (junk 0) s with
      | fault => simp [with_states, hs]
      | stop => simp [with_states, hs]
      | overflow w => simp [with_states, hs]
      | recovered next =>
        simp only [hit, visits] at hsize ⊢
        obtain ⟨h1, h2⟩ := ih _ next (iteration_recovered_nested hL hs hit).1 hsize
        refine ⟨?_, h2⟩
        intro p hp
        simp only [with_states, List.mem_cons, Iter.after, Option.getD_some] at hp
        rcases hp with rfl | hp
        · exact hs
        · exact h1 p hp
      | visited w next =>
        simp only [hit, visits, List.mem_cons] at hsize ⊢
        obtain ⟨hn, -⟩ := iteration_visited_nested hL hs hit (hsize w (Or.inl rfl))
        obtain ⟨h1, h2⟩ := ih _ next hn (fun x hx => hsize x (Or.inr hx))
        refine ⟨?_, h2⟩
        intro p hp
        simp only [with_states, List.mem_cons, Iter.after, Option.getD_some] at hp
        rcases hp with rfl | hp
        · exact hs
        · exact h1 p hp
    · simp [hg, with_states, hs]

/-- A reported box that passed the boundary check ends at or before the innermost
boundary, when its size is below `2^63`. -/
theorem iteration_event_within {data : List Byte} {cfg : Config} {junk : Nat} {s : State}
    {v : Visit} {b : Nat} {rest : List Nat} (hL : data.length + 102 < 2 ^ 63)
    (hs : Nested data s) (hv : v ∈ visits [iteration data cfg junk s])
    (hsz : v.size < 2 ^ 63) (hlev : s.levels = b :: rest) :
    v.offset + v.size ≤ b := by
  obtain ⟨a, ty, h, hd, hfit, rfl⟩ := iteration_visits hv
  obtain ⟨h0, hin, ha⟩ := iteration_decode_inside (by omega) (nested_bounded hs) hd
  simp only at hsz ⊢
  have hc := clamp_le ha h0 (by omega) (by omega) hsz
  have hso := to_size_t_of_nonneg h0 (by omega)
  simp only [violates, hlev, decide_eq_false_iff_not, add64] at hfit
  omega

/-- Bytes after a top-level leaf are decoded as the next box: on a `free` header
with size field 16 followed by 16 zero bytes, the zero bytes at offset 16 are
reported as a second box (size field 0, so the remaining 8 bytes). -/
theorem trailing_bytes_after_leaf :
    events plain_config (main_loop leaf_with_trailing plain_config 8 zero_junk start).log
      = [⟨0, 0, 0x65657266, 16⟩, ⟨16, 0, 0, 8⟩] := by
  decide

/-- The region a reported box hands to `dump`: it starts 8 bytes after the
offset of the box, whatever the header length, and ends where the clamped
box ends. -/
theorem iteration_dump_region {data : List Byte} {cfg : Config} {junk : Nat} {s : State}
    {v : Visit} {d : DumpCall} (hL : data.length < 2 ^ 63) (hs : Bounded data s)
    (hv : v ∈ visits [iteration data cfg junk s]) (hsz : v.size < 2 ^ 63)
    (hd : v.dump = some d) :
    d.start = v.offset + 8 ∧ d.size + 8 = v.size := by
  obtain ⟨a, ty, h, hdec, -, rfl⟩ := iteration_visits hv
  obtain ⟨h0, hin, ha⟩ := iteration_decode_inside hL hs hdec
  obtain ⟨-, ha8, -, -⟩ := atom_decode_ok hdec
  simp only at hsz hd ⊢
  have hc := clamp_le ha h0 (by omega) (by omega) hsz
  have hc8 : 8 ≤ clamp a data.length s.data_offset := by
    unfold clamp to_size_t to_off_t at *
    omega
  unfold dump_call at hd
  split_ifs at hd
  simp only [Option.some.injEq] at hd
  subst hd
  refine ⟨rfl, ?_⟩
  simp only [sub64]
  omega

/-! ## The header decoder -/

/-- C5: header round trip for the common case.  When at least 8 bytes remain and
the big-endian 32-bit size field `s` is neither 0 nor 1 and at least 8,
`atom_decode` succeeds with size `s` and header length 8, and the size written
back as four big-endian bytes followed by `atom_name` of the decoded type is the
header `data[offset] .. data[offset + 7]`. -/
theorem atom_decode_roundtrip (data : List Byte) (offset total : Nat)
    (hot : offset ≤ total) (htl : total ≤ data.length) (ht : total < 2 ^ 64)
    (hrem : 8 ≤ total - offset)
    (h0 : be_value (window data offset 4) ≠ 0) (h1 : be_value (window data offset 4) ≠ 1)
    (h8 : 8 ≤ be_value (window data offset 4)) :
    ∃ type, atom_decode data offset total
        = Decoded.ok (be_value (window data offset 4)) type 8
      ∧ be_bytes 4 (be_value (window data offset 4)) ++ atom_name type
        = window data offset 8 := by
  have hsub : sub64 total offset = total - offset := sub64_of_le hot ht
  have hin4 : inside data offset 4 = true := inside_of_le _ _ _ (by omega)
  have hin8 : inside data (offset + 4) 4 = true := inside_of_le _ _ _ (by omega)
  refine ⟨type_word data offset, ?_, ?_⟩
  · rw [← size_field_eq_be_value] at h0 h1 h8 ⊢
    unfold atom_decode atom_finish
    rw [hsub, hin4, hin8]
    simp only [h0, h1, if_false, if_true]
    split_ifs <;> first | rfl | omega
  · rw [atom_name_type_word, window_eight, ← size_field_eq_be_value, size_field_eq]
    have b0 := byteAt_lt data offset
    have b1 := byteAt_lt data (offset + 1)
    have b2 := byteAt_lt data (offset + 2)
    have b3 := byteAt_lt data (offset + 3)
    simp only [be_bytes, List.cons_append, List.nil_append, List.cons.injEq, and_true]
    refine ⟨?_, ?_, ?_, ?_⟩ <;> omega

/-- Witness for C5: a `free` box with size field 16. -/
theorem atom_decode_roundtrip_witness :
    ∃ type, atom_decode plain_box 0 16
        = Decoded.ok (be_value (window plain_box 0 4)) type 8
      ∧ be_bytes 4 (be_value (window plain_box 0 4)) ++ atom_name type
        = window plain_box 0 8 :=
  atom_decode_roundtrip plain_box 0 16 (by decide) (by decide) (by decide) (by decide)
    (by decide) (by decide) (by decide)

/-- C6: size-zero sentinel.  When at least 8 bytes remain before `total` and the
32-bit size field is 0, `atom_decode` succeeds with size `total - offset` and
header length 8. -/
theorem atom_decode_size_zero (data : List Byte) (offset total : Nat)
    (hot : offset ≤ total) (htl : total ≤ data.length) (ht : total < 2 ^ 64)
    (hrem : 8 ≤ total - offset) (h0 : be_value (window data offset 4) = 0) :
    atom_decode data offset total = Decoded.ok (total - offset) (type_word data offset) 8 := by
  have hsub : sub64 total offset = total - offset := sub64_of_le hot ht
  have hin4 : inside data offset 4 = true := inside_of_le _ _ _ (by omega)
  have hin8 : inside data (offset + 4) 4 = true := inside_of_le _ _ _ (by omega)
  rw [← size_field_eq_be_value] at h0
  unfold atom_decode atom_finish
  rw [hsub, hin4, hin8]
  simp only [h0, if_true]
  split_ifs <;> first | rfl | omega

/-- Witness for C6: a 12-byte file whose only box has size
field 0 resolves to size 12. -/
theorem atom_decode_size_zero_witness :
    atom_decode open_ended_box 0 12 = Decoded.ok (12 - 0) (type_word open_ended_box 0) 8 :=
  atom_decode_size_zero open_ended_box 0 12 (by decide) (by decide) (by decide) (by decide)
    (by decide)

/-- C7: extended size.  When at least 16 bytes remain, the 32-bit size field is 1
and bytes 8-15 are the big-endian encoding of `V` with `8 ≤ V < 2^64`,
`atom_decode` succeeds with size exactly `V` and header length 16. -/
theorem atom_decode_extended (data : List Byte) (offset total V : Nat)
    (hot : offset ≤ total) (htl : total ≤ data.length) (ht : total < 2 ^ 64)
    (hrem : 16 ≤ total - offset) (h1 : be_value (window data offset 4) = 1)
    (hV : window data (offset + 8) 8 = be_bytes 8 V) (hV64 : V < 2 ^ 64) (h8 : 8 ≤ V) :
    atom_decode data offset total = Decoded.ok V (type_word data offset) 16 := by
  have hsub : sub64 total offset = total - offset := sub64_of_le hot ht
  have hin4 : inside data offset 4 = true := inside_of_le _ _ _ (by omega)
  have hin8 : inside data (offset + 4) 4 = true := inside_of_le _ _ _ (by omega)
  have hin16 : inside data (offset + 8) 8 = true := inside_of_le _ _ _ (by omega)
  have hext : ext_size_field data offset = V := by
    rw [ext_size_field_eq_be_value, hV]
    simp only [be_bytes, be_value, List.foldl]
    omega
  rw [← size_field_eq_be_value] at h1
  unfold atom_decode atom_finish
  rw [hsub, hin4, hin8, hin16, hext]
  simp only [h1, if_true]
  split_ifs <;> first | rfl | omega | contradiction

/-- Witness for C7: the 64-bit size field `2^64 - 1`. -/
theorem atom_decode_extended_witness :
    atom_decode huge_extended_box 0 16
      = Decoded.ok (2 ^ 64 - 1) (type_word huge_extended_box 0) 16 :=
  atom_decode_extended huge_extended_box 0 16 (2 ^ 64 - 1) (by decide) (by decide) (by decide)
    (by decide) (by decide) (by decide) (by decide) (by decide)

/-- C8: truncation.  On a buffer of exactly `total` bytes, where every read at
an index of `total` or more is a fault, `atom_decode` returns false (and does not
fault) when fewer than 8 bytes remain, and when the 32-bit size field is 1 and
fewer than 16 bytes remain. -/
theorem atom_decode_truncated (data : List Byte) (offset total : Nat)
    (hlen : data.length = total) (hot : offset ≤ total) (ht : total < 2 ^ 64) :
    (total - offset < 8 → atom_decode data offset total = Decoded.fail)
    ∧ (be_value (window data offset 4) = 1 → total - offset < 16 →
        atom_decode data offset total = Decoded.fail) := by
  have hsub : sub64 total offset = total - offset := sub64_of_le hot ht
  constructor
  · intro h
    unfold atom_decode
    rw [hsub]
    simp [h]
  · intro h1 h
    rw [← size_field_eq_be_value] at h1
    unfold atom_decode
    rw [hsub]
    by_cases h8 : total - offset < 8
    · simp [h8]
    · have hin4 : inside data offset 4 = true := inside_of_le _ _ _ (by omega)
      simp [h8, hin4, h1, h]

/-- Witness for C8: four bytes remain at offset 8 of a
12-byte file, and the same file announces an extended header at offset 0. -/
theorem atom_decode_truncated_witness :
    atom_decode cut_extended_box 8 12 = Decoded.fail
    ∧ atom_decode cut_extended_box 0 12 = Decoded.fail :=
  ⟨(atom_decode_truncated cut_extended_box 8 12 (by decide) (by decide) (by decide)).1
      (by decide),
   (atom_decode_truncated cut_extended_box 0 12 (by decide) (by decide) (by decide)).2
      (by decide) (by decide)⟩

/-! ## The container registry -/

/-- C9: the scan of the table `atoms`, applied to the type word `atom_decode`
loads from a header, gives the extra header bytes the registry of the
specification gives for the four bytes of the code, and finds no entry exactly
when the registry has none.  The registry has 25 codes.  Four zero bytes are a
leaf.  For a leaf the walker advances `data_offset` by the whole clamped size
(before the trailing-gap fold). -/
theorem registry_classification (data : List Byte) (offset : Nat) :
    (atoms_scan (type_word data offset) atoms).map ATOM.size
        = spec_lookup (window data (offset + 4) 4)
    ∧ spec_registry.length = 25
    ∧ atoms_scan (load_word [0, 0, 0, 0]) atoms = none
    ∧ (spec_lookup (window data (offset + 4) 4) = none →
        ∀ cfg junk s atom_size header_size, ∃ v next,
          visit data cfg junk s atom_size (type_word data offset) header_size
            = Iter.visited v next
          ∧ v.size = clamp atom_size data.length s.data_offset
          ∧ next.data_offset
            = fold_gap junk (to_off_t (add64 (to_size_t s.data_offset) v.size)) s.levels) := by
  have hmain : (atoms_scan (type_word data offset) atoms).map ATOM.size
      = spec_lookup (window data (offset + 4) 4) := by
    apply Option.ext
    intro N
    show _ = some N ↔ _ = some N
    rw [atoms_scan_iff_spec, spec_lookup, find_by_code_iff _ _ _ spec_registry_distinct]
  refine ⟨hmain, by decide, by decide, ?_⟩
  intro hleaf cfg junk s atom_size header_size
  rw [← hmain] at hleaf
  have hnone : atoms_scan (type_word data offset) atoms = none := by
    cases h : atoms_scan (type_word data offset) atoms with
    | none => rfl
    | some a => rw [h] at hleaf; simp at hleaf
  exact ⟨_, _, visit_leaf data cfg junk s atom_size _ header_size hnone, rfl, rfl⟩

/-- Witness for C9: a `moov` header is a container with no
extra bytes, and the `free` box of `plain_box` is a leaf the walker skips. -/
theorem registry_classification_witness :
    (atoms_scan (type_word moov_with_leaf 0) atoms).map ATOM.size = spec_lookup [0x6d, 0x6f, 0x6f, 0x76]
    ∧ ∃ v next,
        visit plain_box plain_config 0 start 16 (type_word plain_box 0) 8 = Iter.visited v next
        ∧ v.size = clamp 16 plain_box.length start.data_offset
        ∧ next.data_offset
          = fold_gap 0 (to_off_t (add64 (to_size_t start.data_offset) v.size)) start.levels :=
  ⟨(registry_classification moov_with_leaf 0).1,
   (registry_classification plain_box 0).2.2.2 (by decide) plain_config 0 start 16 8⟩

/-! ## The tree walker -/

/-- C1, failing input: on the 16-byte file `half_range_box` (one `free` box in the
extended form with the 64-bit size `2^63`) the first box the walker reports has
offset 0 and size `2^63`, far beyond the 16 bytes of the file, whatever the dump
filters and the word below `levels[0]` are.  The cast to
`off_t` in the clamp of line 223 makes the size negative, so the minimum keeps
it. -/
theorem clamp_keeps_size_beyond_file (dumps : List (List Nat)) (junk : Nat → Nat)
    (fuel : Nat) :
    ∃ e, (events ⟨false, dumps⟩
          (main_loop half_range_box ⟨false, dumps⟩ (fuel + 1) junk start).log).head? = some e
      ∧ e.offset = 0 ∧ e.depth = 0 ∧ e.size = 2 ^ 63
      ∧ (half_range_box.length : Int) < e.offset + e.size := by
  obtain ⟨v, next, hi, ho, hd, hsz⟩ := half_range_first ⟨false, dumps⟩ (junk 0)
  refine ⟨⟨v.offset, v.depth, v.type, v.size⟩, ?_, ho, hd, hsz, ?_⟩
  · rw [walk_visited (by decide) hi]
    simp [events, visits]
  · simp only [ho, hsz]
    decide

/-- C2, failing input: on the 32-byte file `cycle_file` the loop never halts.
Inside the `moov` box the `free` box of size 8 at offset 8 leads to offset 16,
and the `free` box at offset 16, whose 64-bit size is `2^64 - 8`, passes the
boundary check and the clamp and leads back to offset 8.  Whatever number of
iterations is allowed, the run uses them all. -/
theorem walk_never_halts (cfg : Config) (junk : Nat → Nat) (fuel : Nat) :
    (main_loop cycle_file cfg fuel junk start).halt = Halt.out_of_fuel := by
  cases fuel with
  | zero => rfl
  | succ n =>
    obtain ⟨v, hv⟩ := cycle_step_start cfg (junk 0)
    rw [walk_visited (by decide) hv]
    exact (cycle_never_halts cfg n _).1

/-- C10, failing input: on the 24-byte file `rewind_file` the child bound fails.
The `moov` box at offset 0 pushes the boundary 24; its child at offset 8 has the
64-bit size `2^64 - 8`, so `data_offset += atom_size` wraps to 0, and the walker
reports a box at offset 0, below `0 + 8 + 0`, with that boundary still on the
stack. -/
theorem child_reported_below_container :
    ¬ child_floor (main_loop rewind_file plain_config 3 zero_junk start).log := by
  intro h
  rw [rewind_log] at h
  have := h 0 2 ⟨0, 0, 0x766f6f6d, 24, 8, none⟩ ⟨0, 1, 0x766f6f6d, 24, 8, none⟩
    ⟨8, [24]⟩ ⟨8, [24, 24]⟩ ⟨0x766f6f6d, 0⟩ (by decide) rfl rfl (by decide)
    (by
      intro k x sx _ hk hx hsx
      interval_cases k
      · simp only [List.getElem?_cons_zero, Option.some.injEq] at hx
        subst hx
        simp only [Iter.after, Option.some.injEq] at hsx
        subst hsx
        decide
      · simp only [List.getElem?_cons_succ, List.getElem?_cons_zero, Option.some.injEq] at hx
        subst hx
        simp only [Iter.after, Option.some.injEq] at hsx
        subst hsx
        decide)
  simp at this

/-! ## The tree walker: recovery, scenarios, dumps, order and safety -/

/-- C11: boundary-violation recovery.  In a state whose stack has the innermost
boundary `B`, when the header decoded at the current offset has
`offset + size > B` and `offset + size` does not wrap around `2^64`, the
iteration is the `continue` of line 219: no box is reported and `dump` is not
called, the new `data_offset` is `B` converted to `off_t` (the same 64 bits as
`B`, and the number `B` itself whenever `B < 2^63`), and the stack is the old
one without its innermost boundary. -/
theorem boundary_violation_recovery (data : List Byte) (cfg : Config) (junk : Nat)
    (s : State) (B : Nat) (rest : List Nat) (a ty h : Nat)
    (hlev : s.levels = B :: rest)
    (hdec : atom_decode data (to_size_t s.data_offset) (to_size_t data.length)
      = Decoded.ok a ty h)
    (hnowrap : to_size_t s.data_offset + a < 2 ^ 64)
    (hover : B < to_size_t s.data_offset + a) :
    iteration data cfg junk s = Iter.recovered ⟨to_off_t B, rest⟩
      ∧ to_size_t (to_off_t B) = B
      ∧ (B < 2 ^ 63 → to_off_t B = B)
      ∧ visits [iteration data cfg junk s] = []
      ∧ events cfg [iteration data cfg junk s] = [] := by
  have hviol : B < add64 (to_size_t s.data_offset) a := by
    unfold add64
    omega
  have hit := @iteration_recover data cfg junk s a ty h B rest hlev hdec hviol
  refine ⟨hit, ?_, ?_, ?_, ?_⟩
  · unfold to_size_t to_off_t
    omega
  · intro hB
    unfold to_off_t
    omega
  · rw [hit]
    rfl
  · rw [hit]
    simp [events, visits]

/-- Witness for C11: the third iteration on `nested_overshoot`, where the box at
offset 16 claims 100 bytes inside the boundary 24. -/
theorem boundary_violation_recovery_witness :
    iteration nested_overshoot plain_config 0 ⟨16, [24, 24]⟩ = Iter.recovered ⟨to_off_t 24, [24]⟩
      ∧ to_size_t (to_off_t 24) = 24
      ∧ ((24 : Nat) < 2 ^ 63 → to_off_t (24 : Nat) = (24 : Nat))
      ∧ visits [iteration nested_overshoot plain_config 0 ⟨16, [24, 24]⟩] = []
      ∧ events plain_config [iteration nested_overshoot plain_config 0 ⟨16, [24, 24]⟩] = [] :=
  boundary_violation_recovery nested_overshoot plain_config 0 ⟨16, [24, 24]⟩ 24 [24]
    100 0x65657266 8 rfl (by decide) (by decide) (by decide)

/-- C12, counterexample: the payload of the `trak` box is not opaque.  When its 8
bytes are the header of a `free` box of size 8, the walker reports a third box,
at offset 16 and depth 2. -/
theorem moov_trak_payload_is_parsed :
    events plain_config (main_loop moov_trak_child plain_config 8 zero_junk start).log
      = [⟨0, 0, 0x766f6f6d, 24⟩, ⟨8, 1, 0x6b617274, 16⟩, ⟨16, 2, 0x65657266, 8⟩] := by
  decide

/-- C12, amended: for every 24-byte buffer that starts with a `moov` header of
size 24 followed at offset 8 by a `trak` header of size 16, and whose next four
bytes, read as a big-endian size field, are 9 or more (the child header the
walker decodes at offset 16 then reaches past the boundary 24 and is
discarded), the walker reports exactly the two boxes `(0, 0, moov, 24)` and
`(8, 1, trak, 16)` and the loop exits at the end of the buffer with
`data_offset = 24`. -/
theorem moov_trak_scenario (data : List Byte) (dumps : List (List Nat)) (junk : Nat → Nat)
    (fuel : Nat) (hlen : data.length = 24)
    (hmoov : window data 0 8 = [0, 0, 0, 24, 0x6d, 0x6f, 0x6f, 0x76])
    (htrak : window data 8 8 = [0, 0, 0, 16, 0x74, 0x72, 0x61, 0x6b])
    (hchild : 9 ≤ be_value (window data 16 4)) :
    events ⟨false, dumps⟩ (main_loop data ⟨false, dumps⟩ (fuel + 3) junk start).log
        = [⟨0, 0, 0x766f6f6d, 24⟩, ⟨8, 1, 0x6b617274, 16⟩]
      ∧ (main_loop data ⟨false, dumps⟩ (fuel + 3) junk start).halt = Halt.end_of_buffer
      ∧ (main_loop data ⟨false, dumps⟩ (fuel + 3) junk start).final.data_offset = 24 := by
  have hm := header_of_window hmoov
  have ht := header_of_window htrak
  have hc := size_field_eq_be_value data 16
  have hclt := size_field_lt32 data 16
  have hdec1 : atom_decode data (to_size_t start.data_offset) (to_size_t data.length)
      = Decoded.ok 24 0x766f6f6d 8 := by
    have := @atom_decode_plain data 0 24 24 (by omega)
      (by decide) (by rw [hm.1]; norm_num) (by decide)
    rw [hm.2] at this
    norm_num at this
    rw [hlen]
    exact this
  have hdec2 : atom_decode data (to_size_t (8 : Int)) (to_size_t data.length)
      = Decoded.ok 16 0x6b617274 8 := by
    have := @atom_decode_plain data 8 24 16 (by omega)
      (by decide) (by rw [ht.1]; norm_num) (by decide)
    rw [ht.2] at this
    norm_num at this
    rw [hlen]
    exact this
  have hdec3 : atom_decode data (to_size_t (16 : Int)) (to_size_t data.length)
      = Decoded.ok (size_field data 16) (type_word data 16) 8 := by
    have := @atom_decode_plain data 16 24 (size_field data 16)
      (by omega) (by decide) rfl (by omega)
    rw [hlen]
    exact this
  have hit1 : ∀ j, iteration data ⟨false, dumps⟩ j start = _ := fun j =>
    @iteration_container_eval data ⟨false, dumps⟩ j start _ _ _ 24 ⟨0x766f6f6d, 0⟩ ⟨8, [24]⟩
      hdec1 (by decide)
      (by decide) (by decide) (by rw [hlen]; decide) (by decide)
  have hit2 : ∀ j, iteration data ⟨false, dumps⟩ j ⟨8, [24]⟩ = _ := fun j =>
    @iteration_container_eval data ⟨false, dumps⟩ j ⟨8, [24]⟩ _ _ _ 16 ⟨0x6b617274, 0⟩
      ⟨16, [24, 24]⟩ hdec2
      (by decide) (by decide) (by decide) (by rw [hlen]; decide) (by decide)
  have hviol : violates ⟨16, [24, 24]⟩ (size_field data 16) = true := by
    have h16 : to_size_t (16 : Int) = 16 := by decide
    simp only [violates, h16, add64, decide_eq_true_eq]
    omega
  have h24 : to_off_t ((24 : Nat) : Int) = 24 := by decide
  have hit3 : ∀ j, iteration data ⟨false, dumps⟩ j ⟨16, [24, 24]⟩
      = Iter.recovered ⟨24, [24]⟩ := fun j => by
    have := @iteration_recover_eval data ⟨false, dumps⟩ j ⟨16, [24, 24]⟩ _ _ _ _ _
      hdec3 rfl hviol
    rw [h24] at this
    exact this
  rw [walk_visited (by rw [hlen]; decide) (hit1 _), walk_visited (by rw [hlen]; decide) (hit2 _),
    walk_recovered (by rw [hlen]; decide) (hit3 _),
    main_loop_at_end (show ¬ (⟨24, [24]⟩ : State).data_offset < data.length by
      rw [hlen]; decide)]
  refine ⟨?_, rfl, rfl⟩
  simp [events, visits, start]

/-- Witness for the amended C12: the file `nested_overshoot`, whose `trak` payload
starts with the size field 100. -/
theorem moov_trak_scenario_witness :
    events ⟨false, []⟩ (main_loop nested_overshoot ⟨false, []⟩ (0 + 3) zero_junk start).log
        = [⟨0, 0, 0x766f6f6d, 24⟩, ⟨8, 1, 0x6b617274, 16⟩]
      ∧ (main_loop nested_overshoot ⟨false, []⟩ (0 + 3) zero_junk start).halt
        = Halt.end_of_buffer
      ∧ (main_loop nested_overshoot ⟨false, []⟩ (0 + 3) zero_junk start).final.data_offset
        = 24 :=
  moov_trak_scenario nested_overshoot [] zero_junk 0 (by decide) (by decide) (by decide)
    (by decide)

/-- C13: trailing-gap fold.  For every buffer that is one box of a registry
container type with `N` extra header bytes, with an 8-byte header whose size
field is the length `s` of the buffer and `8 + N ≤ s < 8 + N + 8`, the walker
reports exactly one box, `(0, 0, type, s)`, whatever the other bytes are, and
the loop exits at the end of the buffer with `data_offset = s` and an empty
stack. -/
theorem trailing_gap_fold (data : List Byte) (dumps : List (List Nat)) (junk : Nat → Nat)
    (fuel N : Nat)
    (hsize : be_value (window data 0 4) = data.length)
    (hreg : spec_lookup (window data 4 4) = some N)
    (hlo : 8 + N ≤ data.length) (hhi : data.length < 8 + N + 8) :
    events ⟨false, dumps⟩ (main_loop data ⟨false, dumps⟩ (fuel + 1) junk start).log
        = [⟨0, 0, type_word data 0, data.length⟩]
      ∧ (main_loop data ⟨false, dumps⟩ (fuel + 1) junk start).halt = Halt.end_of_buffer
      ∧ (main_loop data ⟨false, dumps⟩ (fuel + 1) junk start).final = ⟨data.length, []⟩ := by
  have hsf : size_field data 0 = data.length := by rw [size_field_eq_be_value, hsize]
  have hL32 : data.length < 2 ^ 32 := by
    have := size_field_lt32 data 0
    omega
  obtain ⟨e, hscan, heN⟩ : ∃ e, atoms_scan (type_word data 0) atoms = some e ∧ e.size = N := by
    have h := atoms_scan_eq_spec_lookup data 0
    rw [show window data (0 + 4) 4 = window data 4 4 from rfl, hreg] at h
    exact Option.map_eq_some'.1 h
  have hN78 : N ≤ 78 := by
    rw [← heN]
    exact atoms_size_le e (atoms_scan_mem hscan)
  have hdec : atom_decode data (to_size_t start.data_offset) (to_size_t data.length)
      = Decoded.ok data.length (type_word data 0) 8 := by
    have h0 : to_size_t start.data_offset = 0 := by decide
    rw [h0, to_size_t_natCast (by omega)]
    exact atom_decode_plain (by omega) (by rw [sub64_of_le (by omega) (by omega)]; omega) hsf
      (by omega)
  have hclamp : clamp data.length data.length start.data_offset = data.length := by
    unfold clamp to_size_t to_off_t
    simp only [start]
    omega
  have hadd : add64 (to_size_t start.data_offset) data.length = data.length := by
    have h0 : to_size_t start.data_offset = 0 := by decide
    rw [h0]
    unfold add64
    omega
  have hent : to_off_t (start.data_offset + ((8 + e.size) % 2 ^ 32 : Nat)) = 8 + N := by
    unfold to_off_t
    simp only [start]
    omega
  have hnext : (⟨fold_gap 0 (to_off_t (start.data_offset + ((8 + e.size) % 2 ^ 32 : Nat)))
            (add64 (to_size_t start.data_offset) data.length :: start.levels),
          pop_levels (fold_gap 0 (to_off_t (start.data_offset + ((8 + e.size) % 2 ^ 32 : Nat)))
            (add64 (to_size_t start.data_offset) data.length :: start.levels))
            (add64 (to_size_t start.data_offset) data.length :: start.levels)⟩ : State)
      = ⟨data.length, []⟩ := by
    rw [hadd, hent, fold_gap_snap 0 _ data.length _ (by omega) (by omega) (by omega) (by omega)]
    rw [show start.levels = [] from rfl,
      pop_levels_reached _ data.length (by omega) (by omega) (le_refl _)]
  have hit : ∀ j, iteration data ⟨false, dumps⟩ j start = _ := fun j =>
    @iteration_container_eval data ⟨false, dumps⟩ j start _ _ _ _ _ _ hdec rfl hscan (by decide)
      hclamp hnext
  rw [walk_visited (by simp only [start]; omega) (hit _),
    main_loop_at_end (show ¬ (⟨data.length, []⟩ : State).data_offset < data.length by
      simp)]
  refine ⟨?_, rfl, rfl⟩
  simp [events, visits, start]

/-- Witness for C13: the `stsd` box of size 20. -/
theorem trailing_gap_fold_witness :
    events ⟨false, []⟩ (main_loop stsd_box ⟨false, []⟩ (0 + 1) zero_junk start).log
        = [⟨0, 0, type_word stsd_box 0, stsd_box.length⟩]
      ∧ (main_loop stsd_box ⟨false, []⟩ (0 + 1) zero_junk start).halt = Halt.end_of_buffer
      ∧ (main_loop stsd_box ⟨false, []⟩ (0 + 1) zero_junk start).final
        = ⟨stsd_box.length, []⟩ :=
  trailing_gap_fold stsd_box [] zero_junk 0 8 (by decide) (by decide) (by decide) (by decide)

/-- C15, failing input: on the 24-byte file `extended_leaf` with `--dump free` the
box has a 16-byte header (`header_size = 16`) and size 24, and the one call of
`dump` gets the region that starts at offset 8 and is 16 bytes long.  The
region begins inside the header, at the 64-bit size field, not at offset 16
where the payload begins. -/
theorem dump_starts_inside_extended_header :
    (visits (main_loop extended_leaf dump_free 4 zero_junk start).log).map
        (fun v => (v.offset, v.size, v.header_size, v.dump))
      = [(0, 24, 16, some ⟨8, 16, 13, false⟩)] := by
  decide

/-- C16: event order.  On a file short enough that no offset wraps, in a run in
which every reported size is below `2^63`, every reported box lies at least 8
bytes after every box reported before it (so the offsets increase strictly, and
consecutive ones differ by at least 8), the same holds for the structural events
printed, and the depth of every reported box is the number of boundaries on the
stack of the state its iteration started in. -/
theorem events_in_order (data : List Byte) (cfg : Config) (fuel : Nat) (junk : Nat → Nat)
    (hL : data.length + 102 < 2 ^ 63)
    (hsize : ∀ v ∈ visits (main_loop data cfg fuel junk start).log, v.size < 2 ^ 63) :
    (visits (main_loop data cfg fuel junk start).log).Pairwise
        (fun v w => v.offset + 8 ≤ w.offset)
      ∧ (events cfg (main_loop data cfg fuel junk start).log).Pairwise
        (fun e f => e.offset + 8 ≤ f.offset)
      ∧ ∀ p ∈ with_states start (main_loop data cfg fuel junk start).log,
          (∃ j, iteration data cfg j p.1 = p.2)
            ∧ ∀ v ∈ visits [p.2], v.depth = p.1.levels.length := by
  have hpw := main_loop_visits_spaced data cfg hL fuel junk start (start_nested data) hsize
  refine ⟨hpw, ?_, ?_⟩
  · unfold events
    split_ifs
    · exact List.Pairwise.nil
    · exact List.pairwise_map.2 hpw
  · intro p hp
    obtain ⟨j, hj⟩ := main_loop_with_states data cfg fuel junk start p hp
    refine ⟨⟨j, hj⟩, ?_⟩
    intro v hv
    rw [← hj] at hv
    obtain ⟨a, ty, h, -, -, rfl⟩ := iteration_visits hv
    rfl

/-- Witness for C16: the run on `moov_with_leaf`. -/
theorem events_in_order_witness :
    (visits (main_loop moov_with_leaf plain_config 8 zero_junk start).log).Pairwise
      (fun v w => v.offset + 8 ≤ w.offset) :=
  (events_in_order moov_with_leaf plain_config 8 zero_junk (by decide) (by decide)).1

/-- C17, failing input: on the 8-byte file `short_sample_entry` (one `mp4a` box of
size 8) the walker enters the box by `8 + 28` bytes and the loop exits with
`data_offset = 36`, past the end of the 8-byte file, whatever the options and
the word below `levels[0]` are. -/
theorem container_entry_passes_end (cfg : Config) (junk : Nat → Nat) (fuel : Nat) :
    (main_loop short_sample_entry cfg (fuel + 1) junk start).halt = Halt.end_of_buffer
      ∧ (main_loop short_sample_entry cfg (fuel + 1) junk start).final = ⟨36, []⟩
      ∧ (short_sample_entry.length : Int) = 8 := by
  have hdec : atom_decode short_sample_entry (to_size_t start.data_offset)
      (to_size_t short_sample_entry.length) = Decoded.ok 8 0x6134706d 8 := by decide
  have hit : ∀ j, iteration short_sample_entry cfg j start = _ := fun j =>
    @iteration_container_eval short_sample_entry cfg j start _ _ _ 8 ⟨0x6134706d, 28⟩ ⟨36, []⟩
      hdec (by decide) (by decide) (by decide) (by decide) (by decide)
  rw [walk_visited (by decide) (hit _), main_loop_at_end (by decide)]
  exact ⟨rfl, rfl, rfl⟩

set_option maxRecDepth 100000 in
/-- C18, failing input: on the 520-byte file `deep_file` (65 `moov` boxes nested in
one another) the 65th box, at offset 512, is reported at depth 64 and line 238
then writes `levels[64]`, past the end of the array of 64 entries. -/
theorem levels_overflow_on_deep_nesting :
    (main_loop deep_file plain_config 100 zero_junk start).halt
        = Halt.fault Fault.levels_overflow
      ∧ (main_loop deep_file plain_config 100 zero_junk start).final.levels.length = 64
      ∧ ((main_loop deep_file plain_config 100 zero_junk start).log.getLast?).map
          (fun x => (visits [x]).map (fun v => (v.offset, v.depth)))
          = some [(512, 64)] := by
  decide

/-- C19, failing input: on the 16-byte file `plain_box` (one top-level `free` box)
line 248 is reached with `level = 0` and reads the word below `levels[0]`.  The
run depends on that word: when it is 0 the loop exits with `data_offset = 16`,
when it is 20 the fold moves `data_offset` to 20. -/
theorem fold_reads_below_empty_stack :
    (main_loop plain_box plain_config 4 zero_junk start).final = ⟨16, []⟩
      ∧ (main_loop plain_box plain_config 4 junk_twenty start).final = ⟨20, []⟩
      ∧ (main_loop plain_box plain_config 4 junk_twenty start).log.map Iter.after
          = [some ⟨20, []⟩] := by
  decide

/-- C20: nesting invariant.  On a file short enough that no offset wraps, in a run
in which every reported size is below `2^63`, every iteration starts in a state
whose boundaries do not decrease from the innermost to the outermost, all lie
within the file, and are all at or after `data_offset`; every box reported at
depth 1 or more ends at or before the innermost boundary; and the state the run
ends in has the same properties. -/
theorem nesting_invariant (data : List Byte) (cfg : Config) (fuel : Nat) (junk : Nat → Nat)
    (hL : data.length + 102 < 2 ^ 63)
    (hsize : ∀ v ∈ visits (main_loop data cfg fuel junk start).log, v.size < 2 ^ 63) :
    (∀ p ∈ with_states start (main_loop data cfg fuel junk start).log,
        (∃ j, iteration data cfg j p.1 = p.2)
          ∧ p.1.levels.Pairwise (· ≤ ·)
          ∧ (∀ b ∈ p.1.levels, b ≤ data.length)
          ∧ (∀ b ∈ p.1.levels, p.1.data_offset ≤ b)
          ∧ ∀ v ∈ visits [p.2], ∀ b rest, p.1.levels = b :: rest → v.offset + v.size ≤ b)
      ∧ Nested data (main_loop data cfg fuel junk start).final := by
  obtain ⟨h1, h2⟩ := main_loop_nested data cfg hL fuel junk start (start_nested data) hsize
  refine ⟨?_, h2⟩
  intro p hp
  have hn := h1 p hp
  obtain ⟨j, hj⟩ := main_loop_with_states data cfg fuel junk start p hp
  refine ⟨⟨j, hj⟩, hn.2.2.2.1, hn.2.2.1, hn.2.2.2.2, ?_⟩
  intro v hv b rest hlev
  have hmem := visits_of_mem (with_states_mem hp) hv
  rw [← hj] at hv
  exact iteration_event_within hL hn hv (hsize v hmem) hlev

/-- Witness for C20: the run on `moov_with_leaf` ends in a state with the nesting
properties. -/
theorem nesting_invariant_witness :
    Nested moov_with_leaf (main_loop moov_with_leaf plain_config 8 zero_junk start).final :=
  (nesting_invariant moov_with_leaf plain_config 8 zero_junk (by decide) (by decide)).2

end Isobmffdump
